import Mathlib

/-!
Verification of DataFrameMLVisitors.

A shallow embedding, in Lean 4, of the machine-learning visitor algorithms of
`include/DataFrame/DataFrameMLVisitors.h` (simple linear regression, K-means,
affinity propagation, FFT, rolling entropy, rolling impurity), together with
theorems settling the specification claims about them.

Modelling conventions:
* C++ `double` arithmetic is modelled exactly: by `ℚ` where the algorithms are
  rational (K-means, affinity propagation, impurity table counts), and by `ℝ`
  (or `ℂ`) where logarithms / square roots / roots of unity occur.
* A NaN-carrying `double` is modelled as `Option ℚ` / `Option ℝ`, `none`
  standing for a non-finite value (NaN or infinity); `is_nan__` is `Option.isNone`.
* `std::numeric_limits<double>::max()`, used by the source as the seed of
  running min/max folds, is kept as an explicit parameter `dblMax`.
* Random centroid draws (`std::mt19937`) are not modelled: the functions take
  the post-seeding centroid array as an argument, which covers every possible
  draw.
* The literal `0.0000001` of the source is modelled as the rational `1/10^7`.
-/

namespace DataFrameML

/-! ## K-means (`KMeansVisitor::calc_k_means_`) -/

/-- The default distance function of `KMeansVisitor` and `AffinityPropVisitor`:
`[](x, y) { return (x - y) * (x - y); }`. -/
def sqDist (x y : ℚ) : ℚ := (x - y) * (x - y)

/-- The convergence threshold `0.0000001` used by `calc_k_means_`. -/
def kmeansThreshold : ℚ := 1 / 10000000

/-- The inner assignment loop of `calc_k_means_`: index of the nearest centroid
to `v` under `df`, ties broken by the first minimum.  The C++ running minimum
starts at `std::numeric_limits<double>::max()`; since every comparison there is
strict (`distance < best_distance`), a first stored distance is modelled by an
`Option` accumulator starting at `none`. -/
def bestCluster (df : ℚ → ℚ → ℚ) (cents : List ℚ) (v : ℚ) : ℕ :=
  ((List.range cents.length).foldl
    (fun (acc : Option ℚ × ℕ) c =>
      let d := df v (cents.getD c 0)
      match acc.1 with
      | none => (some d, c)
      | some bd => if d < bd then (some d, c) else acc)
    (none, 0)).2

/-- The loop body of the accumulation pass of `calc_k_means_`: skip NaNs, add
the value (resp. `1.0`) into `new_means[best]` (resp. `counts[best]`).  The two
`std::array`s are modelled as functions `ℕ → ℚ` updated pointwise. -/
def kmeansStep (df : ℚ → ℚ → ℚ) (cents : List ℚ)
    (acc : (ℕ → ℚ) × (ℕ → ℚ)) (v : Option ℚ) : (ℕ → ℚ) × (ℕ → ℚ) :=
  match v with
  | none => acc
  | some x =>
    let b := bestCluster df cents x
    (Function.update acc.1 b (acc.1 b + x),
     Function.update acc.2 b (acc.2 b + 1))

/-- The per-iteration accumulation pass of `calc_k_means_`: walk the column,
accumulating per-cluster sums and counts. -/
def kmeansAssign (df : ℚ → ℚ → ℚ) (cents : List ℚ) (col : List (Option ℚ)) :
    (ℕ → ℚ) × (ℕ → ℚ) :=
  col.foldl (kmeansStep df cents) (fun _ => 0, fun _ => 0)

/-- The centroid-update loop of `calc_k_means_`: each cluster `k` (written only
at its own loop iteration, hence an element-wise map) gets
`value = new_means[k] / max(1, counts[k])` and is overwritten only when
`dfunc(value, result[k]) > 0.0000001`; the returned flag is the final `done`
(no centroid was overwritten). -/
def kmeansUpdate (df : ℚ → ℚ → ℚ) (cents : List ℚ) (sums counts : ℕ → ℚ) :
    List ℚ × Bool :=
  ((List.range cents.length).map (fun k =>
      let value := sums k / max 1 (counts k)
      if df value (cents.getD k 0) > kmeansThreshold then value
      else cents.getD k 0),
   (List.range cents.length).all (fun k =>
      decide (df (sums k / max 1 (counts k)) (cents.getD k 0) ≤ kmeansThreshold)))

/-- The main loop of `calc_k_means_`: up to `iters` iterations of
assign-then-update, breaking as soon as the `done` flag survives an iteration.
`cents` is the centroid array after random seeding. -/
def calc_k_means (df : ℚ → ℚ → ℚ) (col : List (Option ℚ)) :
    ℕ → List ℚ → List ℚ
  | 0, cents => cents
  | n + 1, cents =>
    let a := kmeansAssign df cents col
    let u := kmeansUpdate df cents a.1 a.2
    if u.2 then u.1 else calc_k_means df col n u.1

/-- Specification-side view of one iteration: the non-NaN points whose nearest
centroid is `k`. -/
def assignedPts (df : ℚ → ℚ → ℚ) (cents : List ℚ) (col : List (Option ℚ))
    (k : ℕ) : List ℚ :=
  (col.filterMap id).filter (fun x => bestCluster df cents x = k)

/-- Specification-side view of the recomputed centroid `k`: sum of assigned
points over `max 1 count`. -/
def clusterMean (df : ℚ → ℚ → ℚ) (cents : List ℚ) (col : List (Option ℚ))
    (k : ℕ) : ℚ :=
  (assignedPts df cents col k).sum /
    max 1 ((assignedPts df cents col k).length : ℚ)

/-- Arithmetic mean of the non-NaN values of a column. -/
def globalMean (col : List (Option ℚ)) : ℚ :=
  (col.filterMap id).sum / ((col.filterMap id).length : ℚ)

lemma kmeansStep_foldl (df : ℚ → ℚ → ℚ) (cents : List ℚ) (col : List (Option ℚ))
    (acc : (ℕ → ℚ) × (ℕ → ℚ)) (k : ℕ) :
    (col.foldl (kmeansStep df cents) acc).1 k
        = acc.1 k + (assignedPts df cents col k).sum ∧
    (col.foldl (kmeansStep df cents) acc).2 k
        = acc.2 k + ((assignedPts df cents col k).length : ℚ) := by
  induction col generalizing acc with
  | nil => simp [assignedPts]
  | cons v t ih =>
    cases v with
    | none => simpa [assignedPts, kmeansStep] using ih acc
    | some x =>
      rw [List.foldl_cons]
      obtain ⟨h1, h2⟩ := ih (kmeansStep df cents acc (some x))
      rw [h1, h2]
      by_cases hb : bestCluster df cents x = k
      · simp only [assignedPts, kmeansStep, Function.update_apply, hb,
          List.filterMap_cons, id_eq, List.filter_cons, decide_True, if_true,
          List.sum_cons, List.length_cons, if_pos rfl]
        constructor <;> push_cast <;> ring
      · have hb' : ¬ k = bestCluster df cents x := fun h => hb h.symm
        simp [assignedPts, kmeansStep, Function.update_apply, hb, hb',
          List.filterMap_cons, List.filter_cons]

lemma kmeansAssign_sums (df : ℚ → ℚ → ℚ) (cents : List ℚ) (col : List (Option ℚ))
    (k : ℕ) :
    (kmeansAssign df cents col).1 k = (assignedPts df cents col k).sum := by
  simpa [kmeansAssign] using (kmeansStep_foldl df cents col (fun _ => 0, fun _ => 0) k).1

lemma kmeansAssign_counts (df : ℚ → ℚ → ℚ) (cents : List ℚ) (col : List (Option ℚ))
    (k : ℕ) :
    (kmeansAssign df cents col).2 k = ((assignedPts df cents col k).length : ℚ) := by
  simpa [kmeansAssign] using (kmeansStep_foldl df cents col (fun _ => 0, fun _ => 0) k).2

/-- C2 (amended): in every iteration of the k-means main loop, centroid `k`
is set to `sum of assigned non-NaN points / max(1, count)` **only when** that
recomputed value is at distance `> 1e-7` from the current centroid under the
injected distance function (otherwise the centroid keeps its previous value),
and the loop stops early exactly when every centroid's recomputed mean is
within `≤ 1e-7` of it. -/
theorem c2_kmeans_iteration (df : ℚ → ℚ → ℚ) (cents : List ℚ)
    (col : List (Option ℚ)) (iters : ℕ) (k : ℕ) (hk : k < cents.length) :
    ((kmeansUpdate df cents (kmeansAssign df cents col).1
        (kmeansAssign df cents col).2).1.getD k 0 =
      if df (clusterMean df cents col k) (cents.getD k 0) > kmeansThreshold
      then clusterMean df cents col k else cents.getD k 0)
    ∧ ((kmeansUpdate df cents (kmeansAssign df cents col).1
        (kmeansAssign df cents col).2).2 = true ↔
        ∀ j < cents.length,
          df (clusterMean df cents col j) (cents.getD j 0) ≤ kmeansThreshold)
    ∧ (calc_k_means df col (iters + 1) cents =
        if (kmeansUpdate df cents (kmeansAssign df cents col).1
            (kmeansAssign df cents col).2).2
        then (kmeansUpdate df cents (kmeansAssign df cents col).1
            (kmeansAssign df cents col).2).1
        else calc_k_means df col iters
          (kmeansUpdate df cents (kmeansAssign df cents col).1
            (kmeansAssign df cents col).2).1) := by
  refine ⟨?_, ?_, rfl⟩
  · have hlen : k < ((List.range cents.length).map (fun k =>
        let value := (kmeansAssign df cents col).1 k /
          max 1 ((kmeansAssign df cents col).2 k)
        if df value (cents.getD k 0) > kmeansThreshold then value
        else cents.getD k 0)).length := by
      simpa using hk
    rw [kmeansUpdate, List.getD_eq_getElem _ _ hlen]
    simp [kmeansAssign_sums, kmeansAssign_counts, clusterMean]
  · rw [kmeansUpdate]
    simp only [List.all_eq_true, List.mem_range, decide_eq_true_eq,
      kmeansAssign_sums, kmeansAssign_counts]
    constructor
    · intro h j hj
      simpa [clusterMean] using h j hj
    · intro h j hj
      simpa [clusterMean] using h j hj

/-- C2 counterexample: on the column `[0, 1]` with the default squared
distance, one iteration from the seed centroid `0.5001` leaves the centroid at
`0.5001`, although the mean of the points assigned to it is `0.5`: the centroid
is *not* recomputed as `sum / max(1, count)` because its movement `(1e-4)² =
1e-8` is below the `1e-7` threshold. -/
theorem c2_counterexample :
    calc_k_means sqDist [some 0, some 1] 1 [5001/10000] = [5001/10000]
    ∧ clusterMean sqDist [5001/10000] [some 0, some 1] 0 = 1/2
    ∧ (5001/10000 : ℚ) ≠ 1/2 := by
  refine ⟨?_, ?_, by norm_num⟩
  · norm_num [calc_k_means, kmeansAssign, kmeansStep, kmeansUpdate, bestCluster,
      kmeansThreshold, sqDist, Function.update, List.range_succ]
  · norm_num [clusterMean, assignedPts, bestCluster, Function.update,
      List.range_succ, sqDist, List.filterMap, List.filter]

/-- Witness for `c2_kmeans_iteration` at a concrete input. -/
theorem c2_witness :
    (0 < ([0] : List ℚ).length)
    ∧ ((kmeansUpdate sqDist [0] (kmeansAssign sqDist [0] []).1
          (kmeansAssign sqDist [0] []).2).1.getD 0 0 =
        if sqDist (clusterMean sqDist [0] [] 0) (([0] : List ℚ).getD 0 0) >
            kmeansThreshold
        then clusterMean sqDist [0] [] 0 else ([0] : List ℚ).getD 0 0) :=
  ⟨by decide, (c2_kmeans_iteration sqDist [0] [] 0 0 (by decide)).1⟩

lemma bestCluster_single (df : ℚ → ℚ → ℚ) (c : ℚ) (x : ℚ) :
    bestCluster df [c] x = 0 := rfl

lemma assignedPts_single (df : ℚ → ℚ → ℚ) (c : ℚ) (col : List (Option ℚ)) :
    assignedPts df [c] col 0 = col.filterMap id := by
  unfold assignedPts
  exact List.filter_eq_self.mpr (fun a _ => by simp [bestCluster_single])

lemma clusterMean_single (df : ℚ → ℚ → ℚ) (c : ℚ) (col : List (Option ℚ))
    (hne : col.filterMap id ≠ []) :
    clusterMean df [c] col 0 = globalMean col := by
  have hlen : (1 : ℚ) ≤ ((col.filterMap id).length : ℚ) := by
    have := List.length_pos.mpr hne
    exact_mod_cast this
  rw [clusterMean, assignedPts_single, globalMean, max_eq_right hlen]

lemma kmeansUpdate_single (df : ℚ → ℚ → ℚ) (c : ℚ) (col : List (Option ℚ))
    (hne : col.filterMap id ≠ []) :
    kmeansUpdate df [c] (kmeansAssign df [c] col).1 (kmeansAssign df [c] col).2
      = ([if df (globalMean col) c > kmeansThreshold then globalMean col else c],
         decide (df (globalMean col) c ≤ kmeansThreshold)) := by
  have hm : (kmeansAssign df [c] col).1 0 / max 1 ((kmeansAssign df [c] col).2 0)
      = globalMean col := by
    rw [kmeansAssign_sums, kmeansAssign_counts, ← clusterMean,
      clusterMean_single df c col hne]
  rw [kmeansUpdate]
  simp only [List.length_singleton, List.range_succ, List.range_zero,
    List.nil_append, List.map_cons, List.map_nil, List.all_cons, List.all_nil,
    Bool.and_true]
  rw [hm]
  rfl

lemma calc_k_means_fixed (df : ℚ → ℚ → ℚ) (col : List (Option ℚ))
    (hne : col.filterMap id ≠ []) (n : ℕ) :
    calc_k_means df col n [globalMean col] = [globalMean col] := by
  induction n with
  | zero => rfl
  | succ n ih =>
    rw [calc_k_means]
    simp only [kmeansUpdate_single df (globalMean col) col hne, ite_self]
    by_cases h : decide (df (globalMean col) (globalMean col) ≤ kmeansThreshold)
    · simp [h]
    · simp [h, ih]

/-- C6: k-means with `K = 1` on a column with at least one non-NaN value, for
any iteration cap `≥ 1` and any seed centroid: the resulting centroid is the
arithmetic mean of the non-NaN values — except that when the seed is already
within the `1e-7` convergence threshold of that mean, the seed itself is kept. -/
theorem c6_kmeans_k1 (df : ℚ → ℚ → ℚ) (col : List (Option ℚ)) (seed : ℚ)
    (iters : ℕ) (h1 : 1 ≤ iters) (hne : col.filterMap id ≠ []) :
    calc_k_means df col iters [seed] = [globalMean col]
    ∨ (calc_k_means df col iters [seed] = [seed]
        ∧ df (globalMean col) seed ≤ kmeansThreshold) := by
  obtain ⟨n, rfl⟩ : ∃ n, iters = n + 1 := ⟨iters - 1, by omega⟩
  rw [calc_k_means]
  simp only [kmeansUpdate_single df seed col hne]
  by_cases h : df (globalMean col) seed ≤ kmeansThreshold
  · right
    have : ¬ (df (globalMean col) seed > kmeansThreshold) := not_lt.mpr h
    simp [h, this]
  · left
    have hgt : df (globalMean col) seed > kmeansThreshold := lt_of_not_le h
    simp only [h, decide_False, Bool.false_eq_true, if_false, if_pos hgt]
    exact calc_k_means_fixed df col hne n

/-- Witness for `c6_kmeans_k1` at a concrete input. -/
theorem c6_witness :
    (1 ≤ 1) ∧ (([some 0, some 1] : List (Option ℚ)).filterMap id ≠ [])
    ∧ (calc_k_means sqDist [some 0, some 1] 1 [0] = [globalMean [some 0, some 1]]
       ∨ (calc_k_means sqDist [some 0, some 1] 1 [0] = [0]
           ∧ sqDist (globalMean [some 0, some 1]) 0 ≤ kmeansThreshold)) :=
  ⟨le_refl 1, by simp, c6_kmeans_k1 sqDist [some 0, some 1] 0 1 (le_refl 1) (by simp)⟩

end DataFrameML

namespace DataFrameML

/-! ## Affinity propagation (`AffinityPropVisitor`) -/

/-- The packed upper-triangular index expression used throughout
`AffinityPropVisitor` for the similarity matrix:
`(i * csize) + j - ((i * (i + 1)) >> 1)` (natural-number subtraction,
as in the unsigned `size_type` of the source). -/
def packIdx (n i j : ℕ) : ℕ := i * n + j - i * (i + 1) / 2

/-- The index pairs `(i, j)` visited by the double loop of `get_similarity_`:
`i` in `[0, csize-1)`, `j` in `[i+1, csize)`. -/
def similPairs (n : ℕ) : List (ℕ × ℕ) :=
  (List.range (n - 1)).flatMap (fun i =>
    (List.range (n - (i + 1))).map (fun t => (i, i + 1 + t)))

/-- Model of `AffinityPropVisitor::get_similarity_`: negative distance at the packed
slot of each pair `i < j`, running minimum started at
`std::numeric_limits<double>::max()` (the parameter `dblMax`), then every
diagonal slot set to that minimum. -/
def get_similarity (dblMax : ℚ) (df : ℚ → ℚ → ℚ) (col : List ℚ) : ℕ → ℚ :=
  let n := col.length
  let st := (similPairs n).foldl
    (fun (st : (ℕ → ℚ) × ℚ) p =>
      let dist := -(df (col.getD p.1 0) (col.getD p.2 0))
      (Function.update st.1 (packIdx n p.1 p.2) dist,
       if dist < st.2 then dist else st.2))
    (fun _ => 0, dblMax)
  (List.range n).foldl (fun s i => Function.update s (packIdx n i i) st.2) st.1

/-- The responsibility update of `get_avail_and_respon`.  The flat cell
`respon[j * csize + i]` is written only in the loop iteration `(i, j)`, so the
pass is element-wise; a flat index `idx < n*n` decodes as `j = idx / n`,
`i = idx % n`.  The running maximum starts at
`-std::numeric_limits<double>::max()`. -/
def responStep (dblMax : ℚ) (n : ℕ) (d : ℚ) (simil avail respon : ℕ → ℚ) :
    ℕ → ℚ :=
  fun idx =>
    if idx < n * n then
      let j := idx / n
      let i := idx % n
      let maxDiff := (((List.range n).filter (fun jj => jj ≠ j)).map
          (fun jj => simil (packIdx n i jj) + avail (jj * n + i))).foldl
        (fun m v => if v > m then v else m) (-dblMax)
      (1 - d) * (simil (packIdx n i j) - maxDiff) + d * respon idx
    else respon idx

/-- The diagonal availability pass of `get_avail_and_respon`: cell
`avail[i * csize + i]` gets `(1-d) * Σ_{ii ≠ i} max(0, respon[i*csize+ii]) +
d * avail[i*csize+i]`. -/
def availDiagStep (n : ℕ) (d : ℚ) (respon avail : ℕ → ℚ) : ℕ → ℚ :=
  fun idx =>
    if idx < n * n then
      let j := idx / n
      let i := idx % n
      if i = j then
        (1 - d) * (((List.range n).filter (fun ii => ii ≠ i)).map
            (fun ii => max 0 (respon (i * n + ii)))).sum + d * avail idx
      else avail idx
    else avail idx

/-- The off-diagonal availability pass: for `i ≠ j` the three partial loops of
the source sum `max(0, respon[j*csize+ii])` over
`[0, min i j) ∪ (min i j, max i j) ∪ (max i j, csize)`, i.e. over all
`ii ∉ {i, j}`. -/
def availOffStep (n : ℕ) (d : ℚ) (respon avail : ℕ → ℚ) : ℕ → ℚ :=
  fun idx =>
    if idx < n * n then
      let j := idx / n
      let i := idx % n
      if i = j then avail idx
      else
        (1 - d) * min 0 (respon (j * n + j) +
          (((List.range n).filter (fun ii => ii ≠ i ∧ ii ≠ j)).map
            (fun ii => max 0 (respon (j * n + ii)))).sum)
          + d * avail idx
    else avail idx

/-- One iteration of the main loop of `get_avail_and_respon`: responsibility
update (reading the previous availability), then the two availability passes
(reading the fresh responsibility).  State is `(avail, respon)`. -/
def apIter (dblMax : ℚ) (n : ℕ) (d : ℚ) (simil : ℕ → ℚ)
    (st : (ℕ → ℚ) × (ℕ → ℚ)) : (ℕ → ℚ) × (ℕ → ℚ) :=
  let re := responStep dblMax n d simil st.1 st.2
  let avD := availDiagStep n d re st.1
  let av := availOffStep n d re avD
  (av, re)

/-- Model of `get_avail_and_respon`: both matrices start at `0.0` and the iteration
body runs exactly `iters` times (no convergence check). -/
def get_avail_and_respon (dblMax : ℚ) (n : ℕ) (d : ℚ) (simil : ℕ → ℚ)
    (iters : ℕ) : (ℕ → ℚ) × (ℕ → ℚ) :=
  (apIter dblMax n d simil)^[iters] (fun _ => 0, fun _ => 0)

/-- Model of `AffinityPropVisitor::operator()`: the stored result is the set of points
`i` with `respon[i*col_s+i] + avail[i*col_s+i] > 0.0`; the non-owning pointer
`&*(column_begin + i)` is modelled by the index `i` itself. -/
def apExemplars (dblMax : ℚ) (df : ℚ → ℚ → ℚ) (d : ℚ) (iters : ℕ)
    (col : List ℚ) : List ℕ :=
  let n := col.length
  let simil := get_similarity dblMax df col
  let ar := get_avail_and_respon dblMax n d simil iters
  (List.range n).filter (fun i => ar.2 (i * n + i) + ar.1 (i * n + i) > 0)

/-- The similarity lookup as the spec intends it: the packed matrix read at
the upper-triangular slot of the unordered pair `{i, j}`. -/
def similSym (n : ℕ) (s : ℕ → ℚ) (i j : ℕ) : ℚ :=
  s (packIdx n (min i j) (max i j))

/-- The claimed responsibility update
`r(i,k) = (1-λ)(s(i,k) - max_{k'≠k}(s(i,k') + a(k',i))) + λ·r_prev(i,k)`
with `s` read symmetrically, as the specification states it. -/
def responSpec (dblMax : ℚ) (n : ℕ) (d : ℚ) (s avail rPrev : ℕ → ℚ)
    (i k : ℕ) : ℚ :=
  (1 - d) * (similSym n s i k -
    (((List.range n).filter (fun kk => kk ≠ k)).map
      (fun kk => similSym n s i kk + avail (kk * n + i))).foldl
      (fun m v => if v > m then v else m) (-dblMax))
  + d * rPrev (k * n + i)

/-- C3 (code bug): at `col = [0,1,5]` with the default squared distance the
responsibility update reads `simil[packIdx 3 1 0] = simil[2]`, which is the
packed slot of the pair `(0,2)` (value `-25`), instead of the similarity
`s(1,0) = s(0,1) = -1`; the code therefore computes `r(1,0) = -9/2` after one
iteration with damping `1/2`, while the claimed formula gives `15/2`. -/
theorem c3_code_bug :
    get_similarity (10 ^ 309) sqDist [0, 1, 5] (packIdx 3 1 0) = -25
    ∧ similSym 3 (get_similarity (10 ^ 309) sqDist [0, 1, 5]) 1 0 = -1
    ∧ (get_avail_and_respon (10 ^ 309) 3 (1/2)
        (get_similarity (10 ^ 309) sqDist [0, 1, 5]) 1).2 (0 * 3 + 1) = -9/2
    ∧ responSpec (10 ^ 309) 3 (1/2) (get_similarity (10 ^ 309) sqDist [0, 1, 5])
        (fun _ => 0) (fun _ => 0) 1 0 = 15/2 := by
  norm_num [get_similarity, similPairs, packIdx, similSym, responSpec,
    get_avail_and_respon, apIter, responStep, availDiagStep, availOffStep,
    sqDist, Function.update, Function.iterate_succ, Function.iterate_zero,
    List.range_succ]

/-- C8: after `AffinityPropVisitor::operator()`, point `i` is in the stored
result exactly when `r(i,i) + a(i,i) > 0` after the final iteration; the
non-owning pointer into the column is modelled as the index `i`. -/
theorem c8_exemplar_criterion (dblMax : ℚ) (df : ℚ → ℚ → ℚ) (d : ℚ)
    (iters : ℕ) (col : List ℚ) (i : ℕ) :
    i ∈ apExemplars dblMax df d iters col ↔
      i < col.length ∧
      0 < (get_avail_and_respon dblMax col.length d
              (get_similarity dblMax df col) iters).2 (i * col.length + i)
          + (get_avail_and_respon dblMax col.length d
              (get_similarity dblMax df col) iters).1 (i * col.length + i) := by
  simp [apExemplars, List.mem_filter, List.mem_range, and_comm]

end DataFrameML

namespace DataFrameML

/-! ## Rolling impurity (`ImpurityVisitor`) -/

/-- Model of `impurity_type` of the host library. -/
inductive ImpurityType where
  | giniIndex : ImpurityType
  | infoEntropy : ImpurityType

/-- Model of `table.insert(std::pair(v, 0)); ret.first->second += 1.0;` — the
`unordered_map` frequency table modelled as an association list. -/
def tableIncr (t : List (ℚ × ℚ)) (v : ℚ) : List (ℚ × ℚ) :=
  if t.any (fun p => p.1 = v) then
    t.map (fun p => if p.1 = v then (p.1, p.2 + 1) else p)
  else t ++ [(v, 1)]

/-- Model of `find(v); second -= 1.0; if (second == 0) erase;`. -/
def tableDecr (t : List (ℚ × ℚ)) (v : ℚ) : List (ℚ × ℚ) :=
  t.filterMap (fun p =>
    if p.1 = v then (if p.2 - 1 = 0 then none else some (p.1, p.2 - 1))
    else some p)

/-- The per-window impurity: Gini index `1 - Σ p²` or information entropy
`-Σ p·log2(p)` over the frequency table, with `prob = count / roll_count_`. -/
noncomputable def impurityOf (imt : ImpurityType) (w : ℕ) (t : List (ℚ × ℚ)) : ℝ :=
  match imt with
  | .giniIndex =>
      1 - (t.map (fun p => ((p.2 : ℝ) / (w : ℝ)) * ((p.2 : ℝ) / (w : ℝ)))).sum
  | .infoEntropy =>
      -(t.map (fun p => ((p.2 : ℝ) / (w : ℝ)) *
          Real.logb 2 ((p.2 : ℝ) / (w : ℝ)))).sum

/-- The main loop of `ImpurityVisitor::operator()` from loop index `i`: push
the impurity of the current table, stop after pushing once the window would
run past the column (`roll_end > col_s`), otherwise slide the window by
removing `col[i-1]` and inserting `col[i+w-1]`. -/
noncomputable def impurityLoop (imt : ImpurityType) (w n : ℕ) (col : List ℚ) (i : ℕ)
    (t : List (ℚ × ℚ)) : List ℝ :=
  if i < n then
    let v := impurityOf imt w t
    if i + w > n then [v]
    else v :: impurityLoop imt w n col (i + 1)
           (tableIncr (tableDecr t (col.getD (i - 1) 0)) (col.getD (i + w - 1) 0))
  else []
termination_by n - i
decreasing_by simp_wf; omega

/-- Model of `ImpurityVisitor::operator()`: returns the previously stored result
unchanged when `roll_count_ == 0 || roll_count_ > col_s`, otherwise runs the
sliding loop on the table of the first `w` elements. -/
noncomputable def impurityRun (imt : ImpurityType) (w : ℕ) (col : List ℚ) (old : List ℝ) :
    List ℝ :=
  let n := col.length
  if w = 0 ∨ n < w then old
  else impurityLoop imt w n col 1 ((col.take w).foldl tableIncr [])

lemma impurityLoop_length_ge2_aux (imt : ImpurityType) (w n : ℕ) (col : List ℚ)
    (hw : 2 ≤ w) :
    ∀ m i t, n - i = m → 1 ≤ i → i + w ≤ n + 1 →
      (impurityLoop imt w n col i t).length = n + 2 - w - i := by
  intro m
  induction m with
  | zero =>
    intro i t hm hi hiw
    rw [impurityLoop]
    have hin : i < n := by omega
    have hstop : i + w > n := by omega
    simp [hin, hstop]
    omega
  | succ m ih =>
    intro i t hm hi hiw
    rw [impurityLoop]
    have hin : i < n := by omega
    by_cases hstop : i + w > n
    · simp [hin, hstop]; omega
    · simp only [hin, if_true, hstop, if_false]
      rw [List.length_cons, ih (i + 1) _ (by omega) (by omega) (by omega)]
      omega

lemma impurityLoop_length_ge2 (imt : ImpurityType) (w n : ℕ) (col : List ℚ)
    (hw : 2 ≤ w) (i : ℕ) (t : List (ℚ × ℚ)) (hi : 1 ≤ i) (hiw : i + w ≤ n + 1) :
    (impurityLoop imt w n col i t).length = n + 2 - w - i :=
  impurityLoop_length_ge2_aux imt w n col hw (n - i) i t rfl hi hiw

lemma impurityLoop_length_w1_aux (imt : ImpurityType) (n : ℕ) (col : List ℚ) :
    ∀ m i t, n - i = m → (impurityLoop imt 1 n col i t).length = n - i := by
  intro m
  induction m with
  | zero =>
    intro i t hm
    rw [impurityLoop]
    have : ¬ i < n := by omega
    simp [this]
    omega
  | succ m ih =>
    intro i t hm
    rw [impurityLoop]
    have hin : i < n := by omega
    have hstop : ¬ (i + 1 > n) := by omega
    simp only [hin, if_true, hstop, if_false]
    rw [List.length_cons, ih (i + 1) _ (by omega)]
    omega

lemma impurityLoop_length_w1 (imt : ImpurityType) (n : ℕ) (col : List ℚ)
    (i : ℕ) (t : List (ℚ × ℚ)) :
    (impurityLoop imt 1 n col i t).length = n - i :=
  impurityLoop_length_w1_aux imt n col (n - i) i t rfl

/-- C10 (amended): for window `w = 0` or `w > n` the stored result is left
unchanged; for `2 ≤ w ≤ n` the stored result holds exactly `n - w + 1` values
(one per fully-populated window, no NaN padding); but for `w = 1` it holds
only `n - 1` values (the loop index stays below `n`, so the last window is
never emitted). -/
theorem c10_impurity (imt : ImpurityType) (w : ℕ) (col : List ℚ)
    (old : List ℝ) :
    ((w = 0 ∨ col.length < w) → impurityRun imt w col old = old)
    ∧ (2 ≤ w → w ≤ col.length →
        (impurityRun imt w col old).length = col.length - w + 1)
    ∧ (w = 1 → 1 ≤ col.length →
        (impurityRun imt w col old).length = col.length - 1) := by
  refine ⟨fun h => by simp [impurityRun, h.elim (fun h0 => Or.inl h0) (fun hl => Or.inr hl)], ?_, ?_⟩
  · intro hw hwn
    rw [impurityRun]
    have : ¬ (w = 0 ∨ col.length < w) := by omega
    simp only [this, if_false]
    rw [impurityLoop_length_ge2 imt w col.length col hw 1 _ le_rfl (by omega)]
    omega
  · intro hw hn
    subst hw
    rw [impurityRun]
    have : ¬ ((1:ℕ) = 0 ∨ col.length < 1) := by omega
    simp only [this, if_false]
    rw [impurityLoop_length_w1 imt col.length col 1 _]

/-- C10 counterexample: with `w = 1` on a column of length 2 the stored result
holds a single value, not `n - w + 1 = 2`. -/
theorem c10_counterexample :
    (impurityRun ImpurityType.giniIndex 1 [0, 1] []).length = 1
    ∧ (1 : ℕ) ≠ 2 - 1 + 1 := by
  constructor
  · rw [impurityRun]
    norm_num
    rw [impurityLoop_length_w1 ImpurityType.giniIndex 2 [0, 1] 1 _]
  · omega

/-- Witness for `c10_impurity` at a concrete input. -/
theorem c10_witness :
    (2 ≤ 2) ∧ (2 ≤ ([0, 1, 5] : List ℚ).length)
    ∧ (impurityRun ImpurityType.giniIndex 2 [0, 1, 5] []).length
        = ([0, 1, 5] : List ℚ).length - 2 + 1 :=
  ⟨le_refl 2, by decide,
    (c10_impurity ImpurityType.giniIndex 2 [0, 1, 5] []).2.1 (le_refl 2) (by decide)⟩

end DataFrameML

namespace DataFrameML

/-! ## Rolling entropy (`EntropyVisitor`) -/

/-- A `double` that may be non-finite: `none` models NaN or ±∞, `some x` a
finite value modelled exactly by a real. -/
abbrev Fp := Option ℝ

/-- Addition: any non-finite operand contaminates the result. -/
noncomputable def fadd : Fp → Fp → Fp
  | some a, some b => some (a + b)
  | _, _ => none

/-- Negation preserves non-finiteness. -/
noncomputable def fneg : Fp → Fp
  | some a => some (-a)
  | _ => none

/-- Multiplication with non-finite contamination. -/
noncomputable def fmul : Fp → Fp → Fp
  | some a, some b => some (a * b)
  | _, _ => none

/-- Division: a zero divisor gives ±∞ or NaN, i.e. a non-finite value. -/
noncomputable def fdiv : Fp → Fp → Fp
  | some a, some b => if b = 0 then none else some (a / b)
  | _, _ => none

/-- Model of `std::log`: NaN for negative arguments, -∞ at zero, finite above zero. -/
noncomputable def flog : Fp → Fp
  | some a => if a ≤ 0 then none else some (Real.log a)
  | _ => none

/-- Modelled from the spec: `SimpleRollAdopter<SumVisitor<T, I>>` is defined in
`DataFrameStatsVisitors.h`, which is not among the given sources.  Per the
spec ("computes windowed sums", "the first `window-1` results are
undefined/NaN"), output `i` is NaN for `i < window - 1` and otherwise the sum
of the `window` values ending at position `i`. -/
noncomputable def rollSum (w : ℕ) (l : List Fp) : List Fp :=
  (List.range l.length).map (fun i =>
    if i + 1 < w then none
    else ((l.take (i + 1)).drop (i + 1 - w)).foldl fadd (some 0))

/-- The element-wise contribution loop of `EntropyVisitor::operator()`:
`val = *(column_begin + i) / result[i]` with `result` the rolling sums, then
`result[i] = -val * std::log(val) / std::log(log_base_)` (each slot is read
only before it is overwritten, so the pass is element-wise). -/
noncomputable def entropyContrib (w : ℕ) (base : ℝ) (col : List Fp) : List Fp :=
  (List.range col.length).map (fun i =>
    let val := fdiv (col.getD i none) ((rollSum w col).getD i none)
    fdiv (fmul (fneg val) (flog val)) (flog (some base)))

/-- Model of `EntropyVisitor::operator()`: rolling sums of the column, per-element
contributions, rolling sums of the contributions from position `window - 1`
on, NaN at the first `window - 1` positions; the old result is returned
unchanged when `roll_count_ == 0`. -/
noncomputable def entropyRun (w : ℕ) (base : ℝ) (col : List Fp)
    (old : List Fp) : List Fp :=
  if w = 0 then old
  else List.replicate (w - 1) none
    ++ rollSum w ((entropyContrib w base col).drop (w - 1))

lemma rollSum_length (w : ℕ) (l : List Fp) : (rollSum w l).length = l.length := by
  simp [rollSum]

lemma rollSum_getD (w : ℕ) (l : List Fp) (i : ℕ) (d : Fp) (hi : i < l.length) :
    (rollSum w l).getD i d =
      if i + 1 < w then none
      else ((l.take (i + 1)).drop (i + 1 - w)).foldl fadd (some 0) := by
  have hlen : i < (rollSum w l).length := by simpa [rollSum_length]
  rw [List.getD_eq_getElem _ _ hlen]
  simp [rollSum]

lemma fadd_foldl_replicate (k : ℕ) (s a : ℝ) :
    (List.replicate k (some a)).foldl fadd (some s) = some (s + k * a) := by
  induction k generalizing s with
  | zero => simp
  | succ k ih =>
    rw [List.replicate_succ, List.foldl_cons]
    show (List.replicate k (some a)).foldl fadd (some (s + a)) = _
    rw [ih (s + a)]
    congr 1
    push_cast
    ring

lemma rollSum_replicate_getD (w n : ℕ) (a : ℝ) (i : ℕ) (d : Fp) (hi : i < n) :
    (rollSum w (List.replicate n (some a))).getD i d =
      if i + 1 < w then none else some (w * a) := by
  rw [rollSum_getD w _ i d (by simpa using hi)]
  by_cases hiw : i + 1 < w
  · simp [hiw]
  · have h1 : i + 1 ≤ n := hi
    rw [if_neg hiw, if_neg hiw, List.take_replicate, List.drop_replicate]
    have hmin : min (i + 1) n = i + 1 := by omega
    have hsub : i + 1 - (i + 1 - w) = w := by omega
    rw [hmin, hsub, fadd_foldl_replicate w 0 a, zero_add]

end DataFrameML

namespace DataFrameML

lemma entropy_contrib_replicate (w n : ℕ) (v b : ℝ) (hw : 1 ≤ w) (hwn : w ≤ n)
    (hv : v ≠ 0) (hb : 0 < b) (hb1 : b ≠ 1) :
    entropyContrib w b (List.replicate n (some v))
      = List.replicate (w - 1) none
        ++ List.replicate (n - (w - 1))
            (some (Real.log w / ((w : ℝ) * Real.log b))) := by
  have hwR : ((w : ℝ)) ≠ 0 := Nat.cast_ne_zero.mpr (by omega)
  apply List.ext_getElem
  · simp [entropyContrib]
    omega
  · intro i h1 h2
    have hin : i < n := by simpa [entropyContrib] using h1
    have hcol : (List.replicate n (some v)).getD i none = some v := by
      rw [List.getD_eq_getElem _ _ (by simpa using hin), List.getElem_replicate]
    unfold entropyContrib
    rw [List.getElem_map]
    simp only [List.getElem_range]
    rw [hcol, rollSum_replicate_getD w n v _ none hin]
    by_cases hiw : i + 1 < w
    · rw [if_pos hiw]
      have hleft : i < (List.replicate (w - 1) (none : Fp)).length := by
        simp; omega
      rw [List.getElem_append_left hleft]
      simp [fdiv, fmul, fneg, flog]
    · rw [if_neg hiw]
      have hwv : (w : ℝ) * v ≠ 0 := mul_ne_zero hwR hv
      have hu : v / ((w : ℝ) * v) = ((w : ℝ))⁻¹ := by
        rw [mul_comm, div_mul_eq_div_div, div_self hv, one_div]
      have hupos : (0 : ℝ) < ((w : ℝ))⁻¹ := by
        rw [inv_pos]
        exact_mod_cast Nat.pos_of_ne_zero (by omega)
      have hlogb : Real.log b ≠ 0 := by
        intro h0
        rcases (Real.log_eq_zero).mp h0 with h | h | h
        · exact absurd h (ne_of_gt hb)
        · exact hb1 h
        · linarith
      rw [fdiv, if_neg hwv, hu]
      rw [flog, if_neg (not_le.mpr hupos)]
      rw [fneg, fmul, flog, if_neg (not_le.mpr hb)]
      rw [fdiv, if_neg hlogb]
      have hright : ¬ i < (List.replicate (w - 1) (none : Fp)).length := by
        simp; omega
      rw [List.getElem_append_right (by simpa using hright)]
      rw [List.getElem_replicate]
      congr 1
      rw [Real.log_inv]
      field_simp

/-- C4 (amended): for a column of `n ≥ w ≥ 1` identical non-zero values and a
log base `b > 0`, `b ≠ 1`, EntropyVisitor yields NaN at the first `2·(w-1)`
positions (not `w-1`: the second rolling pass NaN-pads again) and
`log(w)/log(b)` — the entropy of a uniform window, zero only for `w = 1` —
at every later position. -/
theorem c4_entropy_identical (w n : ℕ) (v b : ℝ) (p : ℕ) (hw : 1 ≤ w)
    (hwn : w ≤ n) (hv : v ≠ 0) (hb : 0 < b) (hb1 : b ≠ 1) (hp : p < n) :
    (entropyRun w b (List.replicate n (some v)) []).getD p (some 0)
      = if p < 2 * (w - 1) then none
        else some (Real.log w / Real.log b) := by
  have hw0 : w ≠ 0 := by omega
  rw [entropyRun, if_neg hw0,
    entropy_contrib_replicate w n v b hw hwn hv hb hb1]
  have hl : (List.replicate (w - 1) (none : Fp)).length = w - 1 := by simp
  rw [List.drop_left' hl]
  by_cases hp1 : p < w - 1
  · rw [List.getD_append _ _ _ _ (by simpa using hp1),
      if_pos (show p < 2 * (w - 1) by omega)]
    rw [List.getD_eq_getElem _ _ (by simpa using hp1), List.getElem_replicate]
  · rw [List.getD_append_right _ _ _ _ (by simpa using hp1), hl]
    rw [rollSum_replicate_getD w (n - (w - 1)) _ (p - (w - 1)) _ (by omega)]
    by_cases hp2 : p < 2 * (w - 1)
    · rw [if_pos (by omega), if_pos hp2]
    · rw [if_neg (by omega), if_neg hp2]
      congr 1
      rw [mul_div_assoc']
      rw [mul_div_mul_left _ _ (Nat.cast_ne_zero.mpr (by omega))]

/-- C4 counterexample: for the column `[5,5,5,5]` and window `2` (base 2),
position `1 = window - 1` — a fully-populated window position, which the claim
says carries entropy `0` — actually holds NaN: the second rolling pass pads
`window - 1` further NaNs. -/
theorem c4_counterexample :
    (entropyRun 2 2 [some 5, some 5, some 5, some 5] []).getD 1 (some 0) = none
    ∧ (none : Fp) ≠ some (0 : ℝ) := by
  constructor
  · have h4 : ([some 5, some 5, some 5, some 5] : List Fp)
        = List.replicate 4 (some 5) := rfl
    rw [h4, entropyRun, if_neg (by norm_num),
      entropy_contrib_replicate 2 4 5 2 (by norm_num) (by norm_num)
        (by norm_num) (by norm_num) (by norm_num)]
    have hl : (List.replicate (2 - 1) (none : Fp)).length = 2 - 1 := by simp
    rw [List.drop_left' hl]
    rw [List.getD_append_right _ _ _ _ (by simp)]
    rw [rollSum_replicate_getD 2 (4 - (2 - 1)) _ (1 - (List.replicate (2 - 1)
      (none : Fp)).length) _ (by simp)]
    simp
  · simp

/-- Witness for `c4_entropy_identical` at a concrete input. -/
theorem c4_witness :
    (1 ≤ 2) ∧ ((5 : ℝ) ≠ 0) ∧ ((0 : ℝ) < 2) ∧ ((2 : ℝ) ≠ 1)
    ∧ (entropyRun 2 2 (List.replicate 4 (some 5)) []).getD 2 (some 0)
        = if 2 < 2 * (2 - 1) then none
          else some (Real.log 2 / Real.log 2) :=
  ⟨by norm_num, by norm_num, by norm_num, by norm_num,
    c4_entropy_identical 2 4 5 2 2 (by norm_num) (by norm_num) (by norm_num)
      (by norm_num) (by norm_num) (by norm_num)⟩

end DataFrameML

namespace DataFrameML

/-! ## Simple linear regression (`SLRegressionVisitor`) -/

/-- Modelled from the spec: `StatsVisitor` (defined in
`DataFrameStatsVisitors.h`, not among the given sources) supplies the running
mean of the consumed samples; with exact arithmetic the running mean equals
the batch arithmetic mean, and the Welford-style running mean of an empty
state is `0`. -/
noncomputable def statsMean (xs : List ℝ) : ℝ := xs.sum / xs.length

/-- Modelled from the spec: `StatsVisitor::get_variance`, the sample variance
(denominator `n - 1`), consistent with the source's
`s_xx = get_variance() * (n - 1)`. -/
noncomputable def statsVar (xs : List ℝ) : ℝ :=
  ((xs.map (fun x => (x - statsMean xs) ^ 2)).sum) / ((xs.length : ℝ) - 1)

/-- Modelled from the spec: `StatsVisitor::get_std`, the square root of the
sample variance. -/
noncomputable def statsStd (xs : List ℝ) : ℝ := Real.sqrt (statsVar xs)

/-- The accumulator state of `SLRegressionVisitor`: sample count `n_`, the
cross-product accumulator `s_xy_`, and the samples consumed by the two
`StatsVisitor`s. -/
structure SLRState where
  n : ℕ
  sxy : ℝ
  xs : List ℝ
  ys : List ℝ

/-- Model of `SLRegressionVisitor::pre()`. -/
def slrInit : SLRState := ⟨0, 0, [], []⟩

/-- Model of `SLRegressionVisitor::operator()` for one `(x, y)` pair:
`s_xy_ += (mean_x - x)(mean_y - y) · n/(n+1)` with the means taken *before*
the sample is incorporated, then the stats and the count are updated.  (The
NaN-skip guard is vacuous here: the modelled samples are finite reals.) -/
noncomputable def slrStep (st : SLRState) (x y : ℝ) : SLRState :=
  ⟨st.n + 1,
   st.sxy + (statsMean st.xs - x) * (statsMean st.ys - y) * st.n / (st.n + 1),
   st.xs ++ [x], st.ys ++ [y]⟩

/-- A full `pre → apply → post` cycle over two equal-length columns. -/
noncomputable def slrRun (xs ys : List ℝ) : SLRState :=
  (xs.zip ys).foldl (fun st p => slrStep st p.1 p.2) slrInit

/-- Model of `get_slope`: `s_xy / s_xx` with `s_xx = get_variance() * (n - 1)`. -/
noncomputable def slrSlope (st : SLRState) : ℝ :=
  st.sxy / (statsVar st.xs * ((st.n : ℝ) - 1))

/-- Model of `get_intercept`: `mean_y - slope * mean_x`. -/
noncomputable def slrIntercept (st : SLRState) : ℝ :=
  statsMean st.ys - slrSlope st * statsMean st.xs

/-- Model of `get_corr`: `s_xy / ((n - 1) * (std_x * std_y))`. -/
noncomputable def slrCorr (st : SLRState) : ℝ :=
  st.sxy / (((st.n : ℝ) - 1) * (statsStd st.xs * statsStd st.ys))

/-- C5: over `x = [1,2,3,4]`, `y = [2,4,6,8]` a full cycle of
`SLRegressionVisitor` exposes slope `2`, intercept `0` and correlation `1`. -/
theorem c5_slregression :
    slrSlope (slrRun [1, 2, 3, 4] [2, 4, 6, 8]) = 2
    ∧ slrIntercept (slrRun [1, 2, 3, 4] [2, 4, 6, 8]) = 0
    ∧ slrCorr (slrRun [1, 2, 3, 4] [2, 4, 6, 8]) = 1 := by
  have hrun : slrRun [1, 2, 3, 4] [2, 4, 6, 8]
      = ⟨4, 10, [1, 2, 3, 4], [2, 4, 6, 8]⟩ := by
    rw [slrRun]
    norm_num [slrStep, slrInit, statsMean, List.zip]
  have hvarx : statsVar [1, 2, 3, 4] = 5 / 3 := by
    norm_num [statsVar, statsMean]
  have hvary : statsVar [2, 4, 6, 8] = 20 / 3 := by
    norm_num [statsVar, statsMean]
  have hslope : slrSlope (slrRun [1, 2, 3, 4] [2, 4, 6, 8]) = 2 := by
    rw [hrun, slrSlope]
    norm_num [hvarx]
  refine ⟨hslope, ?_, ?_⟩
  · rw [slrIntercept, hslope, hrun]
    norm_num [statsMean]
  · rw [hrun, slrCorr]
    have hstd : statsStd [1, 2, 3, 4] * statsStd [2, 4, 6, 8] = 10 / 3 := by
      rw [statsStd, statsStd, hvarx, hvary, ← Real.sqrt_mul (by norm_num)]
      rw [show (5 / 3 : ℝ) * (20 / 3) = (10 / 3) ^ 2 by norm_num]
      exact Real.sqrt_sq (by norm_num)
    rw [hstd]
    norm_num

end DataFrameML

namespace DataFrameML

/-! ## Input preservation of the cluster-materialization routines

`KMeansVisitor::calc_clusters_` and `AffinityPropVisitor::get_clusters` are
the only routines that take non-const aliases into the column
(`const_cast<value_type *>`).  They are embedded here in state-passing style:
the state carries the column next to the visitor-owned cluster containers and
every loop iteration is a state update, so that a write to the column — if
the source performed one — would be visible in the final state. -/

/-- A pointer pushed by `calc_clusters_`: `Sum.inl k` models `&result_[k]`
(the centroid seeded as first element of cluster `k`), `Sum.inr j` models
`&*(column_begin + j)`. -/
abbrev ClusterPtr := ℕ ⊕ ℕ

/-- The mutable state visible to `calc_clusters_`: the column and the local
`cluster_type` being filled. -/
structure KMClustersState where
  col : List (Option ℚ)
  clusters : List (List ClusterPtr)

/-- One iteration of the point loop of `calc_clusters_`: skip NaN, find the
nearest centroid (same running-minimum loop as the assignment pass), push a
pointer to the column element onto that cluster. -/
def calcClustersStep (df : ℚ → ℚ → ℚ) (cents : List ℚ)
    (st : KMClustersState) (j : ℕ) : KMClustersState :=
  match st.col.getD j none with
  | none => st
  | some x =>
    let b := bestCluster df cents x
    { st with clusters := st.clusters.set b (st.clusters.getD b [] ++ [Sum.inr j]) }

/-- Model of `KMeansVisitor::calc_clusters_`: seed each cluster with a pointer to its
centroid, then assign every non-NaN point to its nearest centroid. -/
def calc_clusters (df : ℚ → ℚ → ℚ) (cents : List ℚ)
    (st : KMClustersState) : KMClustersState :=
  let init : KMClustersState :=
    { st with clusters := (List.range cents.length).map (fun i => [Sum.inl i]) }
  (List.range st.col.length).foldl (calcClustersStep df cents) init

/-- The mutable state visible to `AffinityPropVisitor::get_clusters`: the
column and the returned `cluster_type`; cluster entries are column indices
(the non-owning pointers of the source). -/
structure APClustersState where
  col : List ℚ
  clusters : List (List ℕ)

/-- One iteration of the point loop of `get_clusters`: nearest exemplar by
the running-minimum loop (exemplar `e` dereferences to `col[e]`), push the
point's pointer onto that cluster. -/
def apGetClustersStep (df : ℚ → ℚ → ℚ) (centers : List ℕ)
    (st : APClustersState) (j : ℕ) : APClustersState :=
  let b := bestCluster df (centers.map (fun e => st.col.getD e 0)) (st.col.getD j 0)
  { st with clusters := st.clusters.set b (st.clusters.getD b [] ++ [j]) }

/-- Model of `AffinityPropVisitor::get_clusters`: empty when there are no exemplars,
otherwise one cluster per exemplar filled by nearest-exemplar assignment. -/
def apGetClusters (df : ℚ → ℚ → ℚ) (centers : List ℕ)
    (st : APClustersState) : APClustersState :=
  if 0 < centers.length then
    (List.range st.col.length).foldl (apGetClustersStep df centers)
      { st with clusters := List.replicate centers.length [] }
  else { st with clusters := [] }

lemma foldl_proj_invariant {σ α : Type} (proj : σ → α) (step : σ → ℕ → σ)
    (hstep : ∀ s j, proj (step s j) = proj s) :
    ∀ (l : List ℕ) (init : σ), proj (l.foldl step init) = proj init := by
  intro l
  induction l with
  | nil => intro init; rfl
  | cons a t ih => intro init; rw [List.foldl_cons, ih, hstep]

/-- C9: neither cluster-materialization routine writes the column: in the
state-passing embedding, the column component of the state after
`calc_clusters_` (K-means) and after `get_clusters` (affinity propagation)
is exactly the input column.  (The index sequence is never even read by
these routines beyond its length.) -/
theorem c9_no_input_mutation (df : ℚ → ℚ → ℚ) (cents : List ℚ)
    (centers : List ℕ) (st1 : KMClustersState) (st2 : APClustersState) :
    (calc_clusters df cents st1).col = st1.col
    ∧ (apGetClusters df centers st2).col = st2.col := by
  constructor
  · rw [calc_clusters]
    rw [foldl_proj_invariant KMClustersState.col (calcClustersStep df cents)]
    intro s j
    rw [calcClustersStep]
    match h : s.col.getD j none with
    | none => rfl
    | some x => rfl
  · rw [apGetClusters]
    by_cases h : 0 < centers.length
    · rw [if_pos h]
      rw [foldl_proj_invariant APClustersState.col (apGetClustersStep df centers)]
      intro s j
      rfl
    · rw [if_neg h]

end DataFrameML

namespace DataFrameML

/-! ## FFT (`FastFourierTransVisitor`) -/

/-- Model of `std::polar(1, θ) = exp(iθ)`. -/
noncomputable def polar1 (θ : ℝ) : ℂ := Complex.exp (θ * Complex.I)

/-- The `levels` loop of `fft_radix2_`:
`for (i = col_s; i > 1; i >>= 1) levels++`. -/
def countLevels (n : ℕ) : ℕ :=
  if 1 < n then countLevels (n / 2) + 1 else 0
termination_by n
decreasing_by omega

/-- Model of `reverse_bits_(val, width)`: `width` iterations of
`result = (result << 1) | (val & 1); val >>= 1`; at step `i` the appended bit
is bit `i` of the original value (the OR is an addition: the low bit of
`2·result` is clear). -/
def reverseBits (val width : ℕ) : ℕ :=
  (List.range width).foldl (fun r i => 2 * r + (val / 2 ^ i) % 2) 0

/-- The radix-2 twiddle table:
`exp_table[i] = polar(1, two_pi * i / col_s)`, `i < col_s / 2`, with
`two_pi = (reverse ? 2 : -2)·π`. -/
noncomputable def expTableR2 (n : ℕ) (rev : Bool) : List ℂ :=
  (List.range (n / 2)).map (fun i : ℕ =>
    polar1 (((if rev then (2 : ℝ) else -2) * Real.pi) * i / n))

/-- The bit-reversal addressing permutation of `fft_radix2_`.  The source
loops `i` upward and executes `swap(column[i], column[rb])` when `rb > i`;
since `reverse_bits_(·, levels)` is an involution on `[0, 2^levels)`, each
unordered pair `{i, rb i}` is swapped exactly once (at its smaller index), so
the loop's net effect is the permutation `i ↦ reverse_bits_(i, levels)`. -/
noncomputable def bitrevPerm (l : List ℂ) : List ℂ :=
  (List.range l.length).map
    (fun i => l.getD (reverseBits i (countLevels l.length)) 0)

/-- One butterfly stage of size `s` (`half = s/2`, `table_step = col_s/s`):
within each block starting at `i`, the pair at `(j, j+half)` is rewritten from
its pre-stage values (`temp` is computed before either write) as
`column[j] + temp` and `column[j] - temp` with
`temp = column[j+half] * exp_table[(j-i)·table_step]`; every cell is written
exactly once, so the stage is element-wise in the pairs. -/
noncomputable def butterflyStage (tbl : List ℂ) (n s : ℕ) (l : List ℂ) :
    List ℂ :=
  (List.range l.length).map (fun idx =>
    let pos := idx % s
    let half := s / 2
    if pos < half then
      l.getD idx 0 + l.getD (idx + half) 0 * tbl.getD (pos * (n / s)) 0
    else
      l.getD (idx - half) 0 - l.getD idx 0 * tbl.getD ((pos - half) * (n / s)) 0)

/-- Model of `fft_radix2_`: bit-reversal permutation followed by the stage loop
`s = 2, 4, …, col_s` (stage `k` has `s = 2^(k+1)`; for `col_s = 2^L` there are
exactly `L = levels` stages, and `countLevels` matches the C++ stage count
also for non-powers of two). -/
noncomputable def fftRadix2 (col : List ℂ) (rev : Bool) : List ℂ :=
  let n := col.length
  let tbl := expTableR2 n rev
  (List.range (countLevels n)).foldl
    (fun c k => butterflyStage tbl n (2 ^ (k + 1)) c) (bitrevPerm col)

/-- The Bluestein chirp table:
`exp_table[i] = polar(1, ±π·((i·i) mod (2·col_s)) / col_s)`. -/
noncomputable def expTableBlu (n : ℕ) (rev : Bool) : List ℂ :=
  (List.range n).map (fun i =>
    polar1 ((if rev then Real.pi else -Real.pi) * ((i * i) % (2 * n) : ℕ) / n))

/-- The convolution length search `while (m / 2 <= col_s) m *= 2`, started at
`m = 1`.  (The `0 < m` guard only rules out the unreachable argument `m = 0`,
on which the C++ loop would not terminate.) -/
def bluMAux (n : ℕ) : ℕ → ℕ
  | m =>
    if h : 0 < m ∧ m / 2 ≤ n then bluMAux n (m * 2) else m
termination_by m => 2 * n + 2 - m
decreasing_by omega

/-- The power-of-two convolution length `m` of `fft_bluestein_`. -/
def bluM (n : ℕ) : ℕ := bluMAux n 1

/-- Model of `transform_` as called from `convolve_`: the arguments there always have
power-of-two length `m`, on which the dispatcher selects `fft_radix2_` (the
Bluestein branch is unreachable), so the call is embedded as the radix-2
branch guarded by the empty check. -/
noncomputable def transformPow2 (col : List ℂ) (rev : Bool) : List ℂ :=
  if col.length = 0 then col else fftRadix2 col rev

/-- Model of `convolve_(x, y)`: forward-transform both operands, pointwise multiply
(into `xvec`), reverse-transform, divide every element by the length. -/
noncomputable def convolve (x y : List ℂ) : List ℂ :=
  (transformPow2 ((transformPow2 x false).zipWith (· * ·)
      (transformPow2 y false)) true).map (fun v => v / (x.length : ℂ))

/-- The zero-padded chirp-multiplied input `xvec` of `fft_bluestein_`
(`xvec[i] = column[i] * exp_table[i]` below `col_s`, zero up to `m`). -/
noncomputable def bluXvec (col : List ℂ) (rev : Bool) : List ℂ :=
  (List.range (bluM col.length)).map (fun i =>
    if i < col.length then col.getD i 0 * (expTableBlu col.length rev).getD i 0
    else 0)

/-- The conjugate-chirp kernel `yvec` of `fft_bluestein_`:
`yvec[0] = exp_table[0]` and `yvec[i] = yvec[m-i] = conj(exp_table[i])` for
`1 ≤ i < col_s`; `m > 2·col_s` keeps the two writes disjoint, every other
slot stays zero. -/
noncomputable def bluYvec (col : List ℂ) (rev : Bool) : List ℂ :=
  (List.range (bluM col.length)).map (fun i =>
    if i = 0 then (expTableBlu col.length rev).getD 0 0
    else if i < col.length then
      starRingEnd ℂ ((expTableBlu col.length rev).getD i 0)
    else if 1 ≤ bluM col.length - i ∧ bluM col.length - i < col.length then
      starRingEnd ℂ ((expTableBlu col.length rev).getD (bluM col.length - i) 0)
    else 0)

/-- Model of `fft_bluestein_`: the convolution of `xvec` and `yvec` followed by the
final chirp multiplication writing the `col_s` outputs. -/
noncomputable def fftBluestein (col : List ℂ) (rev : Bool) : List ℂ :=
  (List.range col.length).map (fun i =>
    (expTableBlu col.length rev).getD i 0
      * (convolve (bluXvec col rev) (bluYvec col rev)).getD i 0)

/-- The power-of-two test of the source, `(col_s & (col_s - 1)) == 0`
(true also at `col_s = 0`: in C++ by unsigned wrap-around, here by truncated
subtraction). -/
def isPow2Test (n : ℕ) : Bool := decide (n &&& (n - 1) = 0)

/-- Model of `transform_`: empty is a no-op, power-of-two sizes go to `fft_radix2_`,
every other size to `fft_bluestein_`. -/
noncomputable def fftTransform (col : List ℂ) (rev : Bool) : List ℂ :=
  if col.length = 0 then col
  else if isPow2Test col.length then fftRadix2 col rev
  else fftBluestein col rev

/-- Model of `itransform_`: conjugate, forward transform (same power-of-two dispatch,
no empty check — `fft_radix2_` on an empty vector runs zero stages), conjugate
again, divide every element by the length. -/
noncomputable def fftITransform (col : List ℂ) : List ℂ :=
  let c1 := col.map (starRingEnd ℂ)
  let c2 := if isPow2Test c1.length then fftRadix2 c1 false
            else fftBluestein c1 false
  (c2.map (starRingEnd ℂ)).map (fun v => v / (col.length : ℂ))

/-- Model of `FastFourierTransVisitor::operator()`: copy the column into complex
values (a real column is lifted with zero imaginary part) and run the forward
or the inverse transform; the result replaces the stored one. -/
noncomputable def fftOperator (inverse : Bool) (col : List ℂ) : List ℂ :=
  if inverse then fftITransform col else fftTransform col false

end DataFrameML

namespace DataFrameML

lemma bitrevPerm_length (l : List ℂ) : (bitrevPerm l).length = l.length := by
  simp [bitrevPerm]

lemma butterflyStage_length (tbl : List ℂ) (n s : ℕ) (l : List ℂ) :
    (butterflyStage tbl n s l).length = l.length := by
  simp [butterflyStage]

lemma fftRadix2_length (col : List ℂ) (rev : Bool) :
    (fftRadix2 col rev).length = col.length := by
  rw [fftRadix2]
  rw [foldl_proj_invariant List.length
    (fun c k => butterflyStage (expTableR2 col.length rev) col.length
      (2 ^ (k + 1)) c)
    (fun s j => butterflyStage_length _ _ _ s) _ (bitrevPerm col)]
  exact bitrevPerm_length col

lemma fftBluestein_length (col : List ℂ) (rev : Bool) :
    (fftBluestein col rev).length = col.length := by
  simp [fftBluestein]

lemma fftTransform_length (col : List ℂ) (rev : Bool) :
    (fftTransform col rev).length = col.length := by
  rw [fftTransform]
  by_cases h0 : col.length = 0
  · rw [if_pos h0]
  · rw [if_neg h0]
    by_cases hp : isPow2Test col.length
    · rw [if_pos hp, fftRadix2_length]
    · rw [if_neg hp, fftBluestein_length]

lemma fftITransform_length (col : List ℂ) :
    (fftITransform col).length = col.length := by
  unfold fftITransform
  simp only [List.length_map]
  by_cases hp : isPow2Test col.length
  · simp [hp, fftRadix2_length]
  · simp [hp, fftBluestein_length]

lemma eq_zero_iff_testBit (x : ℕ) : x = 0 ↔ ∀ i, x.testBit i = false := by
  constructor
  · rintro rfl i
    exact Nat.zero_testBit i
  · intro h
    exact Nat.eq_of_testBit_eq (fun i => by rw [h i, Nat.zero_testBit])

lemma land_pred_double (a : ℕ) (ha : 0 < a) :
    ((2 * a) &&& (2 * a - 1) = 0) ↔ (a &&& (a - 1) = 0) := by
  rw [eq_zero_iff_testBit, eq_zero_iff_testBit]
  constructor
  · intro h i
    have h2 := h (i + 1)
    rw [Nat.testBit_land] at h2 ⊢
    rw [Nat.testBit_succ, Nat.testBit_succ] at h2
    have e1 : 2 * a / 2 = a := by omega
    have e2 : (2 * a - 1) / 2 = a - 1 := by omega
    rw [e1, e2] at h2
    exact h2
  · intro h i
    rw [Nat.testBit_land]
    cases i with
    | zero =>
      rw [Nat.testBit_zero]
      have : 2 * a % 2 = 0 := by omega
      simp [this]
    | succ i =>
      rw [Nat.testBit_succ, Nat.testBit_succ]
      have e1 : 2 * a / 2 = a := by omega
      have e2 : (2 * a - 1) / 2 = a - 1 := by omega
      rw [e1, e2, ← Nat.testBit_land]
      rw [h i]

lemma land_pred_eq_zero_iff :
    ∀ n, 0 < n → ((n &&& (n - 1) = 0) ↔ ∃ k, n = 2 ^ k) := by
  intro n
  induction n using Nat.strong_induction_on with
  | _ n ih =>
    intro hn
    rcases Nat.even_or_odd n with he | ho
    · obtain ⟨a, ha⟩ := he
      have ha' : n = 2 * a := by omega
      subst ha'
      have ha0 : 0 < a := by omega
      rw [land_pred_double a ha0, ih a (by omega) ha0]
      constructor
      · rintro ⟨k, rfl⟩
        exact ⟨k + 1, by ring⟩
      · rintro ⟨k, hk⟩
        cases k with
        | zero => omega
        | succ k =>
          refine ⟨k, ?_⟩
          have : 2 * a = 2 * 2 ^ k := by rw [hk]; ring
          omega
    · by_cases h1 : n = 1
      · subst h1
        simp
        exact ⟨0, rfl⟩
      · have hn3 : 3 ≤ n := by
          rcases ho with ⟨m, hm⟩
          omega
      -- odd n ≥ 3: both sides are false
        constructor
        · intro h
          exfalso
          have hhalf : 0 < n / 2 := by omega
          have hbit : ∃ j, (n / 2).testBit j = true := by
            by_contra hno
            push_neg at hno
            have hz : n / 2 = 0 := (eq_zero_iff_testBit _).mpr (by
              intro i
              cases h : (n / 2).testBit i with
              | false => rfl
              | true => exact absurd h (hno i))
            omega
          obtain ⟨j, hj⟩ := hbit
          have hcommon : (n &&& (n - 1)).testBit (j + 1) = true := by
            rw [Nat.testBit_land, Nat.testBit_succ, Nat.testBit_succ]
            have e2 : (n - 1) / 2 = n / 2 := by
              rcases ho with ⟨m, hm⟩
              omega
            rw [e2, hj]
            rfl
          rw [h] at hcommon
          rw [Nat.zero_testBit] at hcommon
          exact absurd hcommon (by simp)
        · rintro ⟨k, rfl⟩
          cases k with
          | zero => omega
          | succ k =>
            exfalso
            rcases ho with ⟨m, hm⟩
            have : 2 ^ (k + 1) = 2 * 2 ^ k := by ring
            omega

/-- C7: `transform_` of an empty column is a no-op (and so is the inverse
path of `operator()`); every non-empty column is dispatched by the
power-of-two test `(col_s & (col_s-1)) == 0` — true exactly at the powers of
two — to `fft_radix2_` or otherwise to `fft_bluestein_`; and no length is
rejected: the stored result always has exactly the input's length. -/
theorem c7_fft_dispatch (inv rev : Bool) (col : List ℂ) :
    (fftOperator inv [] = [])
    ∧ (col ≠ [] → fftTransform col rev =
        if isPow2Test col.length then fftRadix2 col rev
        else fftBluestein col rev)
    ∧ (0 < col.length → (isPow2Test col.length = true ↔ ∃ k, col.length = 2 ^ k))
    ∧ (fftOperator inv col).length = col.length := by
  refine ⟨?_, ?_, ?_, ?_⟩
  · cases inv with
    | false =>
      rw [fftOperator]
      rfl
    | true =>
      rw [fftOperator, if_pos rfl, fftITransform]
      simp only [List.map_nil, List.length_nil]
      rw [if_pos (by rfl)]
      rw [fftRadix2]
      simp [bitrevPerm, countLevels, expTableR2]
  · intro hne
    rw [fftTransform, if_neg (by simpa using hne)]
  · intro hpos
    rw [isPow2Test, decide_eq_true_eq]
    exact land_pred_eq_zero_iff col.length hpos
  · cases inv with
    | false => rw [fftOperator, if_neg (by simp), fftTransform_length]
    | true => rw [fftOperator, if_pos rfl, fftITransform_length]

/-- Witness for `c7_fft_dispatch` at a concrete input. -/
theorem c7_witness :
    (([1, 0, 0, 0] : List ℂ) ≠ [])
    ∧ (fftTransform [1, 0, 0, 0] false =
        if isPow2Test ([1, 0, 0, 0] : List ℂ).length
        then fftRadix2 [1, 0, 0, 0] false
        else fftBluestein [1, 0, 0, 0] false)
    ∧ (isPow2Test ([1, 0, 0, 0] : List ℂ).length = true
        ↔ ∃ k, ([1, 0, 0, 0] : List ℂ).length = 2 ^ k) :=
  ⟨by simp,
   (c7_fft_dispatch false false [1, 0, 0, 0]).2.1 (by simp),
   (c7_fft_dispatch false false [1, 0, 0, 0]).2.2.1 (by simp)⟩

end DataFrameML

namespace DataFrameML

/-! ## Roots of unity and the discrete Fourier transform

Machinery for settling the FFT round-trip claim: `rou n z` is the root of
unity `exp(2πi·z/n)`, and `dft sign l` the discrete Fourier transform that
both `fft_radix2_` and `fft_bluestein_` are shown to compute (`sign = -1`
forward, `sign = 1` reverse). -/

/-- Model of `exp(2πi·z/n)`. -/
noncomputable def rou (n : ℕ) (z : ℤ) : ℂ :=
  Complex.exp (2 * Real.pi * Complex.I * z / n)

lemma rou_add (n : ℕ) (a b : ℤ) : rou n (a + b) = rou n a * rou n b := by
  rw [rou, rou, rou, ← Complex.exp_add]
  congr 1
  push_cast
  ring

lemma rou_zero (n : ℕ) : rou n 0 = 1 := by
  simp [rou]

lemma rou_mul_nat (n : ℕ) (z : ℤ) (k : ℕ) : rou n (z * k) = rou n z ^ k := by
  rw [rou, rou, ← Complex.exp_nat_mul]
  congr 1
  push_cast
  ring

lemma rou_dvd_eq_one (n : ℕ) (m : ℤ) : rou n (n * m) = 1 := by
  rcases Nat.eq_zero_or_pos n with h0 | hpos
  · subst h0
    simp [rou]
  · rw [rou]
    have hn : (n : ℂ) ≠ 0 := Nat.cast_ne_zero.mpr (by omega)
    have : 2 * (Real.pi : ℂ) * Complex.I * ((n : ℤ) * m : ℤ) / n
        = (m : ℤ) * (2 * Real.pi * Complex.I) := by
      push_cast
      field_simp
      ring
    rw [this, Complex.exp_int_mul_two_pi_mul_I]

lemma rou_periodic (n : ℕ) (a m : ℤ) : rou n (a + n * m) = rou n a := by
  rw [rou_add, rou_dvd_eq_one, mul_one]

lemma rou_mul_cancel (a c : ℕ) (z : ℤ) (hc : c ≠ 0) :
    rou (a * c) (z * c) = rou a z := by
  rcases Nat.eq_zero_or_pos a with h0 | hpos
  · subst h0
    simp [rou]
  · rw [rou, rou]
    congr 1
    have ha : (a : ℂ) ≠ 0 := Nat.cast_ne_zero.mpr (by omega)
    have hc' : (c : ℂ) ≠ 0 := Nat.cast_ne_zero.mpr hc
    push_cast
    field_simp
    ring

lemma conj_rou (n : ℕ) (z : ℤ) : starRingEnd ℂ (rou n z) = rou n (-z) := by
  rw [rou, rou, ← Complex.exp_conj]
  congr 1
  have h2 : (starRingEnd ℂ) (2 : ℂ) = 2 := by
    rw [show (2 : ℂ) = ((2 : ℝ) : ℂ) by norm_num, Complex.conj_ofReal]
  have hn : (starRingEnd ℂ) ((n : ℕ) : ℂ) = ((n : ℕ) : ℂ) := by
    rw [← Complex.ofReal_natCast, Complex.conj_ofReal]
  have hz : (starRingEnd ℂ) ((z : ℤ) : ℂ) = ((z : ℤ) : ℂ) := by
    rw [← Complex.ofReal_intCast, Complex.conj_ofReal]
  have hpi : (starRingEnd ℂ) ((Real.pi : ℝ) : ℂ) = ((Real.pi : ℝ) : ℂ) :=
    Complex.conj_ofReal _
  rw [map_div₀, map_mul, map_mul, map_mul, h2, hpi, Complex.conj_I, hz, hn]
  push_cast
  ring

lemma rou_eq_one_iff (n : ℕ) (hn : 0 < n) (z : ℤ) :
    rou n z = 1 ↔ (n : ℤ) ∣ z := by
  have hn' : (n : ℂ) ≠ 0 := Nat.cast_ne_zero.mpr (by omega)
  have hne : (2 * (Real.pi : ℂ) * Complex.I) ≠ 0 := by
    have hpi : ((Real.pi : ℝ) : ℂ) ≠ 0 := Complex.ofReal_ne_zero.mpr Real.pi_ne_zero
    simp [hpi, Complex.I_ne_zero]
  rw [rou, Complex.exp_eq_one_iff]
  constructor
  · rintro ⟨k, hk⟩
    rw [div_eq_iff hn'] at hk
    have h3 : (2 * (Real.pi : ℂ) * Complex.I) * (z : ℂ)
        = (2 * (Real.pi : ℂ) * Complex.I) * ((k * n : ℤ) : ℂ) := by
      push_cast
      linear_combination hk
    have hz : (z : ℂ) = ((k * n : ℤ) : ℂ) := mul_left_cancel₀ hne h3
    have hz' : z = k * n := by exact_mod_cast hz
    exact ⟨k, by rw [hz']; ring⟩
  · rintro ⟨k, rfl⟩
    refine ⟨k, ?_⟩
    push_cast
    field_simp
    ring

lemma rou_half (m : ℕ) (hm : m ≠ 0) : rou (2 * m) m = -1 := by
  rw [rou]
  have hm' : ((m : ℕ) : ℂ) ≠ 0 := Nat.cast_ne_zero.mpr hm
  have : 2 * (Real.pi : ℂ) * Complex.I * (m : ℤ) / ((2 * m : ℕ) : ℂ)
      = (Real.pi : ℂ) * Complex.I := by
    push_cast
    field_simp
    ring
  rw [this, Complex.exp_pi_mul_I]

lemma sum_rou_orthogonal (n : ℕ) (hn : 0 < n) (d : ℤ) :
    ∑ j ∈ Finset.range n, rou n (j * d) = if (n : ℤ) ∣ d then (n : ℂ) else 0 := by
  by_cases hdvd : (n : ℤ) ∣ d
  · rw [if_pos hdvd]
    have h1 : ∀ j ∈ Finset.range n, rou n ((j : ℤ) * d) = 1 := by
      intro j _
      obtain ⟨c, rfl⟩ := hdvd
      have : (j : ℤ) * ((n : ℤ) * c) = (n : ℤ) * (j * c) := by ring
      rw [this, rou_dvd_eq_one]
    rw [Finset.sum_congr rfl h1]
    simp
  · rw [if_neg hdvd]
    have hroud : rou n d ≠ 1 := by
      intro h1
      exact hdvd ((rou_eq_one_iff n hn d).mp h1)
    have hterm : ∀ j ∈ Finset.range n, rou n ((j : ℤ) * d) = rou n d ^ j := by
      intro j _
      rw [mul_comm, rou_mul_nat]
    rw [Finset.sum_congr rfl hterm, geom_sum_eq hroud]
    have hpow : rou n d ^ n = 1 := by
      rw [← rou_mul_nat n d n]
      have he : (d * (n : ℕ) : ℤ) = (n : ℤ) * d := by ring
      rw [he, rou_dvd_eq_one]
    rw [hpow]
    simp

/-- The discrete Fourier transform both FFT algorithms compute: entry `k` is
`Σ_j l_j · exp(2πi·sign·j·k / n)`; `sign = -1` is the forward direction of the
source (`two_pi = -2π`), `sign = 1` the reverse one. -/
noncomputable def dft (sign : ℤ) (l : List ℂ) : List ℂ :=
  (List.range l.length).map (fun k : ℕ =>
    ∑ j ∈ Finset.range l.length, l.getD j 0 * rou l.length (sign * j * k))

lemma dft_length (sign : ℤ) (l : List ℂ) : (dft sign l).length = l.length := by
  rw [dft, List.length_map, List.length_range]

lemma dft_nil (sign : ℤ) : dft sign [] = [] := by
  rw [dft]
  rfl

lemma dft_getD (sign : ℤ) (l : List ℂ) (k : ℕ) (hk : k < l.length) (d : ℂ) :
    (dft sign l).getD k d
      = ∑ j ∈ Finset.range l.length, l.getD j 0 * rou l.length (sign * j * k) := by
  have hk2 : k < (dft sign l).length := by rw [dft_length]; exact hk
  rw [List.getD_eq_getElem _ _ hk2]
  simp only [dft, List.getElem_map, List.getElem_range]

lemma sum_range_even_odd (M : ℕ) (f : ℕ → ℂ) :
    ∑ u ∈ Finset.range (2 * M), f u
      = (∑ v ∈ Finset.range M, f (2 * v)) + ∑ v ∈ Finset.range M, f (2 * v + 1) := by
  induction M with
  | zero => simp
  | succ M ih =>
    have h : 2 * (M + 1) = (2 * M + 1) + 1 := by ring
    rw [h, Finset.sum_range_succ, Finset.sum_range_succ, ih,
      Finset.sum_range_succ, Finset.sum_range_succ]
    ring

lemma butterfly_even_odd (t : ℕ) (ε : ℤ) (g : ℕ → ℂ) (r : ℤ) :
    (∑ u ∈ Finset.range (2 ^ (t + 1)), g u * rou (2 ^ (t + 1)) (ε * u * r))
      = (∑ v ∈ Finset.range (2 ^ t), g (2 * v) * rou (2 ^ t) (ε * v * r))
        + rou (2 ^ (t + 1)) (ε * r)
          * ∑ v ∈ Finset.range (2 ^ t), g (2 * v + 1) * rou (2 ^ t) (ε * v * r) := by
  have h2 : 2 ^ (t + 1) = 2 * 2 ^ t := by ring
  rw [h2, sum_range_even_odd]
  congr 1
  · apply Finset.sum_congr rfl
    intro v _
    congr 1
    have he : (ε * (2 * v : ℕ) * r : ℤ) = (ε * v * r) * 2 := by push_cast; ring
    rw [he, ← rou_mul_cancel (2 ^ t) 2 (ε * v * r) (by norm_num)]
    congr 1
    ring
  · rw [Finset.mul_sum]
    apply Finset.sum_congr rfl
    intro v _
    have he : (ε * (2 * v + 1 : ℕ) * r : ℤ) = (ε * v * r) * 2 + ε * r := by
      push_cast; ring
    rw [he, rou_add]
    have hc : rou (2 * 2 ^ t) ((ε * v * r) * 2) = rou (2 ^ t) (ε * v * r) := by
      rw [← rou_mul_cancel (2 ^ t) 2 (ε * v * r) (by norm_num)]
      congr 1
      ring
    rw [hc]
    ring

lemma rou_shift_half (t : ℕ) (ε : ℤ) (hε : ε = 1 ∨ ε = -1) :
    rou (2 ^ (t + 1)) (ε * 2 ^ t) = -1 := by
  rcases hε with rfl | rfl
  · have h : ((1 : ℤ) * 2 ^ t) = ((2 ^ t : ℕ) : ℤ) := by push_cast; ring
    rw [h, show (2 : ℕ) ^ (t + 1) = 2 * 2 ^ t by ring]
    exact rou_half (2 ^ t) (by positivity)
  · have h : ((-1 : ℤ) * 2 ^ t) = -((2 ^ t : ℕ) : ℤ) := by push_cast; ring
    rw [h]
    have hper : rou (2 ^ (t + 1)) (-((2 ^ t : ℕ) : ℤ))
        = rou (2 ^ (t + 1)) (-((2 ^ t : ℕ) : ℤ) + (2 ^ (t + 1) : ℕ) * 1) := by
      rw [rou_periodic]
    rw [hper]
    have h2 : (-((2 ^ t : ℕ) : ℤ) + ((2 ^ (t + 1) : ℕ) : ℤ) * 1) = ((2 ^ t : ℕ) : ℤ) := by
      push_cast
      ring
    rw [h2, show (2 : ℕ) ^ (t + 1) = 2 * 2 ^ t by ring]
    exact rou_half (2 ^ t) (by positivity)

lemma rou_period_mul (t : ℕ) (ε v r : ℤ) :
    rou (2 ^ t) (ε * v * (r + 2 ^ t)) = rou (2 ^ t) (ε * v * r) := by
  have h : ε * v * (r + 2 ^ t) = ε * v * r + ((2 ^ t : ℕ) : ℤ) * (ε * v) := by
    push_cast
    ring
  rw [h, rou_periodic]

lemma butterfly_shift (t : ℕ) (ε : ℤ) (hε : ε = 1 ∨ ε = -1) (g : ℕ → ℂ) (r : ℤ) :
    (∑ u ∈ Finset.range (2 ^ (t + 1)), g u * rou (2 ^ (t + 1)) (ε * u * (r + 2 ^ t)))
      = (∑ v ∈ Finset.range (2 ^ t), g (2 * v) * rou (2 ^ t) (ε * v * r))
        - rou (2 ^ (t + 1)) (ε * r)
          * ∑ v ∈ Finset.range (2 ^ t), g (2 * v + 1) * rou (2 ^ t) (ε * v * r) := by
  rw [butterfly_even_odd t ε g (r + 2 ^ t)]
  have htw : rou (2 ^ (t + 1)) (ε * (r + 2 ^ t))
      = -rou (2 ^ (t + 1)) (ε * r) := by
    have h : ε * (r + 2 ^ t) = ε * r + ε * 2 ^ t := by ring
    rw [h, rou_add, rou_shift_half t ε hε]
    ring
  simp only [rou_period_mul, htw]
  ring

lemma revFold_init (b : ℕ → ℕ) (w : ℕ) :
    ∀ r0, (List.range w).foldl (fun r i => 2 * r + b i) r0
      = r0 * 2 ^ w + (List.range w).foldl (fun r i => 2 * r + b i) 0 := by
  induction w with
  | zero => intro r0; simp
  | succ w ih =>
    intro r0
    rw [List.range_succ, List.foldl_append, List.foldl_append]
    simp only [List.foldl_cons, List.foldl_nil]
    rw [ih r0, ih 0]
    ring

lemma reverseBits_succ (v w : ℕ) :
    reverseBits v (w + 1) = (v % 2) * 2 ^ w + reverseBits (v / 2) w := by
  rw [reverseBits, reverseBits, List.range_succ_eq_map, List.foldl_cons,
    List.foldl_map]
  have h0 : 2 * 0 + v / 2 ^ 0 % 2 = v % 2 := by simp
  rw [h0]
  have hfun : ∀ (r i : ℕ), 2 * r + v / 2 ^ (i + 1) % 2
      = 2 * r + (v / 2) / 2 ^ i % 2 := by
    intro r i
    congr 2
    rw [Nat.div_div_eq_div_mul, ← pow_succ']
  have hfe : (fun (x : ℕ) (y : ℕ) => 2 * x + v / 2 ^ (y + 1) % 2)
      = (fun (x : ℕ) (y : ℕ) => 2 * x + (v / 2) / 2 ^ y % 2) := by
    funext x y
    exact hfun x y
  rw [show Nat.succ = fun y => y + 1 from rfl, hfe]
  exact revFold_init _ w (v % 2)

lemma reverseBits_double (b w : ℕ) :
    reverseBits (2 * b) (w + 1) = reverseBits b w := by
  rw [reverseBits_succ]
  have h1 : 2 * b % 2 = 0 := by omega
  have h2 : 2 * b / 2 = b := by omega
  rw [h1, h2, zero_mul, zero_add]

lemma reverseBits_double_add_one (b w : ℕ) :
    reverseBits (2 * b + 1) (w + 1) = 2 ^ w + reverseBits b w := by
  rw [reverseBits_succ]
  have h1 : (2 * b + 1) % 2 = 1 := by omega
  have h2 : (2 * b + 1) / 2 = b := by omega
  rw [h1, h2, one_mul]

lemma countLevels_pow2 (L : ℕ) : countLevels (2 ^ L) = L := by
  induction L with
  | zero => rw [countLevels]; norm_num
  | succ L ih =>
    rw [countLevels]
    have h1 : 1 < 2 ^ (L + 1) := by
      have : (2 : ℕ) ^ (L + 1) ≥ 2 ^ 1 := Nat.pow_le_pow_right (by norm_num) (by omega)
      omega
    rw [if_pos h1]
    have h2 : 2 ^ (L + 1) / 2 = 2 ^ L := by
      rw [pow_succ]
      exact Nat.mul_div_cancel _ (by norm_num)
    rw [h2, ih]

lemma expTableR2_getD (n : ℕ) (rev : Bool) (i : ℕ) (hi : i < n / 2) :
    (expTableR2 n rev).getD i 0 = rou n ((if rev then 1 else -1) * i) := by
  have hlen : i < (expTableR2 n rev).length := by
    rw [expTableR2, List.length_map, List.length_range]
    exact hi
  rw [List.getD_eq_getElem _ _ hlen]
  simp only [expTableR2, List.getElem_map, List.getElem_range]
  rw [polar1, rou]
  congr 1
  cases rev with
  | false =>
    simp only [if_neg (Bool.false_ne_true), Bool.false_eq_true]
    push_cast
    ring
  | true =>
    simp only [if_pos rfl]
    push_cast
    ring

lemma butterflyStage_getD (tbl : List ℂ) (n s : ℕ) (l : List ℂ) (idx : ℕ)
    (hidx : idx < l.length) :
    (butterflyStage tbl n s l).getD idx 0 =
      if idx % s < s / 2 then
        l.getD idx 0 + l.getD (idx + s / 2) 0 * tbl.getD ((idx % s) * (n / s)) 0
      else
        l.getD (idx - s / 2) 0
          - l.getD idx 0 * tbl.getD ((idx % s - s / 2) * (n / s)) 0 := by
  have hlen : idx < (butterflyStage tbl n s l).length := by
    rw [butterflyStage_length]
    exact hidx
  rw [List.getD_eq_getElem _ _ hlen]
  simp only [butterflyStage, List.getElem_map, List.getElem_range]

lemma bitrevPerm_getD (l : List ℂ) (i : ℕ) (hi : i < l.length) :
    (bitrevPerm l).getD i 0 = l.getD (reverseBits i (countLevels l.length)) 0 := by
  have hlen : i < (bitrevPerm l).length := by
    rw [bitrevPerm_length]
    exact hi
  rw [List.getD_eq_getElem _ _ hlen]
  simp only [bitrevPerm, List.getElem_map, List.getElem_range]

lemma stageFold_length (tbl : List ℂ) (n t : ℕ) (init : List ℂ) :
    ((List.range t).foldl
      (fun c k => butterflyStage tbl n (2 ^ (k + 1)) c) init).length
      = init.length :=
  foldl_proj_invariant List.length _
    (fun s j => butterflyStage_length tbl n (2 ^ (j + 1)) s) _ init

lemma radix2_invariant (col : List ℂ) (rev : Bool) (L : ℕ)
    (hlen : col.length = 2 ^ L) :
    ∀ t, t ≤ L → ∀ b r, r < 2 ^ t → b < 2 ^ (L - t) →
      ((List.range t).foldl
        (fun c k => butterflyStage (expTableR2 col.length rev) col.length
          (2 ^ (k + 1)) c) (bitrevPerm col)).getD (b * 2 ^ t + r) 0
        = ∑ u ∈ Finset.range (2 ^ t),
            col.getD (reverseBits b (L - t) + u * 2 ^ (L - t)) 0
              * rou (2 ^ t) ((if rev then 1 else -1) * u * r) := by
  intro t
  induction t with
  | zero =>
    intro _ b r hr hb
    have hr0 : r = 0 := by omega
    subst hr0
    rw [List.range_zero, List.foldl_nil]
    have hb' : b < col.length := by
      rw [hlen]
      simpa using hb
    rw [show b * 2 ^ 0 + 0 = b by ring, bitrevPerm_getD col b hb', hlen,
      countLevels_pow2]
    rw [show (2 : ℕ) ^ 0 = 1 from rfl, Finset.sum_range_one]
    simp [rou_zero]
  | succ t ih =>
    intro ht b r hr hb
    have htL : t ≤ L := by omega
    rw [List.range_succ, List.foldl_append, List.foldl_cons, List.foldl_nil]
    set ε : ℤ := if rev then 1 else -1 with hεdef
    have hεor : ε = 1 ∨ ε = -1 := by
      rw [hεdef]
      cases rev
      · exact Or.inr rfl
      · exact Or.inl rfl
    set P := (List.range t).foldl
      (fun c k => butterflyStage (expTableR2 col.length rev) col.length
        (2 ^ (k + 1)) c) (bitrevPerm col) with hP
    have hPlen : P.length = col.length := by
      rw [hP, stageFold_length, bitrevPerm_length]
    have hpowL : 2 ^ (L - t - 1) * 2 ^ (t + 1) = 2 ^ L := by
      rw [← pow_add]
      congr 1
      omega
    have hexp : (2 : ℕ) ^ (L - (t + 1)) = 2 ^ (L - t - 1) := by
      congr 1
    have hidx : b * 2 ^ (t + 1) + r < col.length := by
      rw [hlen]
      have h1 : b * 2 ^ (t + 1) + r < (b + 1) * 2 ^ (t + 1) := by
        have hp : 0 < 2 ^ (t + 1) := pow_pos (by norm_num) _
        nlinarith
      have h3 : (b + 1) * 2 ^ (t + 1) ≤ 2 ^ L := by
        calc (b + 1) * 2 ^ (t + 1) ≤ 2 ^ (L - t - 1) * 2 ^ (t + 1) :=
              Nat.mul_le_mul_right _ (by omega)
          _ = 2 ^ L := hpowL
      omega
    rw [butterflyStage_getD _ _ _ P _ (by rw [hPlen]; exact hidx)]
    have hmod : (b * 2 ^ (t + 1) + r) % 2 ^ (t + 1) = r := by
      rw [mul_comm, Nat.mul_add_mod, Nat.mod_eq_of_lt hr]
    have hhalf : 2 ^ (t + 1) / 2 = 2 ^ t := by
      rw [pow_succ]
      exact Nat.mul_div_cancel _ (by norm_num)
    have hdiv : col.length / 2 ^ (t + 1) = 2 ^ (L - t - 1) := by
      rw [hlen, Nat.pow_div ht (by norm_num)]
      congr 1
    rw [hmod, hhalf, hdiv]
    have hb2 : 2 * b < 2 ^ (L - t) := by
      have h4 : (2 : ℕ) ^ (L - t) = 2 * 2 ^ (L - t - 1) := by
        rw [← pow_succ']
        congr 1
        omega
      have h5 : b < 2 ^ (L - t - 1) := by
        have := hb
        omega
      omega
    have hb2' : 2 * b + 1 < 2 ^ (L - t) := by
      have h4 : (2 : ℕ) ^ (L - t) = 2 * 2 ^ (L - t - 1) := by
        rw [← pow_succ']
        congr 1
        omega
      have h5 : b < 2 ^ (L - t - 1) := by
        have := hb
        omega
      omega
    have hLt : L - t = (L - t - 1) + 1 := by omega
    have hLt1 : L - (t + 1) = L - t - 1 := by omega
    have hpow2 : (2 : ℕ) ^ (L - t) = 2 * 2 ^ (L - t - 1) := by
      rw [← pow_succ']
      congr 1
    by_cases hcase : r < 2 ^ t
    · rw [if_pos hcase]
      rw [show b * 2 ^ (t + 1) + r = (2 * b) * 2 ^ t + r by ring]
      rw [show (2 * b) * 2 ^ t + r + 2 ^ t = (2 * b + 1) * 2 ^ t + r by ring]
      rw [ih htL (2 * b) r hcase hb2, ih htL (2 * b + 1) r hcase hb2']
      have htblidx : r * 2 ^ (L - t - 1) < col.length / 2 := by
        rw [hlen]
        have hL1 : 1 ≤ L := by omega
        have hd2 : (2 : ℕ) ^ L / 2 = 2 ^ (L - 1) := by
          rw [show L = (L - 1) + 1 by omega, pow_succ]
          rw [Nat.mul_div_cancel _ (show 0 < 2 by norm_num)]
          congr 1
        rw [hd2]
        calc r * 2 ^ (L - t - 1) < 2 ^ t * 2 ^ (L - t - 1) := by
              apply Nat.mul_lt_mul_right (pow_pos (by norm_num) _) |>.mpr
              exact hcase
          _ = 2 ^ (L - 1) := by
              rw [← pow_add]
              congr 1
              omega
      rw [expTableR2_getD col.length rev _ htblidx]
      have hrou : rou col.length (ε * ((r * 2 ^ (L - t - 1) : ℕ) : ℤ))
          = rou (2 ^ (t + 1)) (ε * r) := by
        rw [hlen, show (2 : ℕ) ^ L = 2 ^ (t + 1) * 2 ^ (L - t - 1) by
          rw [← pow_add]; congr 1; omega]
        rw [show (ε * ((r * 2 ^ (L - t - 1) : ℕ) : ℤ) : ℤ)
            = (ε * r) * ((2 ^ (L - t - 1) : ℕ) : ℤ) by push_cast; ring]
        exact rou_mul_cancel _ _ _ (by positivity)
      rw [hrou]
      have hE : ∑ v ∈ Finset.range (2 ^ t),
          col.getD (reverseBits b (L - (t + 1)) + 2 * v * 2 ^ (L - (t + 1))) 0
            * rou (2 ^ t) (ε * v * r)
          = ∑ u ∈ Finset.range (2 ^ t),
            col.getD (reverseBits (2 * b) (L - t) + u * 2 ^ (L - t)) 0
              * rou (2 ^ t) (ε * u * r) := by
        apply Finset.sum_congr rfl
        intro v _
        have hi : reverseBits (2 * b) (L - t) + v * 2 ^ (L - t)
            = reverseBits b (L - (t + 1)) + 2 * v * 2 ^ (L - (t + 1)) := by
          rw [hLt, reverseBits_double, hLt1, pow_succ']
          ring
        rw [hi]
      have hO : ∑ v ∈ Finset.range (2 ^ t),
          col.getD (reverseBits b (L - (t + 1)) + (2 * v + 1) * 2 ^ (L - (t + 1))) 0
            * rou (2 ^ t) (ε * v * r)
          = ∑ u ∈ Finset.range (2 ^ t),
            col.getD (reverseBits (2 * b + 1) (L - t) + u * 2 ^ (L - t)) 0
              * rou (2 ^ t) (ε * u * r) := by
        apply Finset.sum_congr rfl
        intro v _
        have hi : reverseBits (2 * b + 1) (L - t) + v * 2 ^ (L - t)
            = reverseBits b (L - (t + 1)) + (2 * v + 1) * 2 ^ (L - (t + 1)) := by
          rw [hLt, reverseBits_double_add_one, hLt1, pow_succ']
          ring
        rw [hi]
      rw [butterfly_even_odd t ε
        (fun u => col.getD (reverseBits b (L - (t + 1)) + u * 2 ^ (L - (t + 1))) 0)
        (r : ℤ)]
      simp only [hE, hO]
      ring
    · rw [if_neg hcase]
      set r0 := r - 2 ^ t with hr0def
      have hr0 : r0 < 2 ^ t := by
        have : r < 2 ^ (t + 1) := hr
        have h2 : (2 : ℕ) ^ (t + 1) = 2 * 2 ^ t := by
          rw [← pow_succ']
        omega
      have hrr0 : r = r0 + 2 ^ t := by
        have : 2 ^ t ≤ r := by omega
        omega
      have hsplit : (2 * b + 1) * 2 ^ t = (2 * b) * 2 ^ t + 2 ^ t := by ring
      have h2t : (2 : ℕ) ^ (t + 1) = 2 * 2 ^ t := by rw [← pow_succ']
      have hbig : b * 2 ^ (t + 1) = (2 * b) * 2 ^ t := by
        rw [h2t]
        ring
      rw [show b * 2 ^ (t + 1) + r - 2 ^ t = (2 * b) * 2 ^ t + r0 by omega]
      rw [show b * 2 ^ (t + 1) + r = (2 * b + 1) * 2 ^ t + r0 by omega]
      rw [ih htL (2 * b) r0 hr0 hb2, ih htL (2 * b + 1) r0 hr0 hb2']
      have htblidx : r0 * 2 ^ (L - t - 1) < col.length / 2 := by
        rw [hlen]
        have hL1 : 1 ≤ L := by omega
        have hd2 : (2 : ℕ) ^ L / 2 = 2 ^ (L - 1) := by
          rw [show L = (L - 1) + 1 by omega, pow_succ]
          rw [Nat.mul_div_cancel _ (show 0 < 2 by norm_num)]
          congr 1
        rw [hd2]
        calc r0 * 2 ^ (L - t - 1) < 2 ^ t * 2 ^ (L - t - 1) := by
              apply Nat.mul_lt_mul_right (pow_pos (by norm_num) _) |>.mpr
              exact hr0
          _ = 2 ^ (L - 1) := by
              rw [← pow_add]
              congr 1
              omega
      rw [expTableR2_getD col.length rev _ htblidx]
      have hrou : rou col.length (ε * ((r0 * 2 ^ (L - t - 1) : ℕ) : ℤ))
          = rou (2 ^ (t + 1)) (ε * r0) := by
        rw [hlen, show (2 : ℕ) ^ L = 2 ^ (t + 1) * 2 ^ (L - t - 1) by
          rw [← pow_add]; congr 1; omega]
        rw [show (ε * ((r0 * 2 ^ (L - t - 1) : ℕ) : ℤ) : ℤ)
            = (ε * r0) * ((2 ^ (L - t - 1) : ℕ) : ℤ) by push_cast; ring]
        exact rou_mul_cancel _ _ _ (by positivity)
      rw [hrou]
      have hcast : ((r : ℕ) : ℤ) = ((r0 : ℕ) : ℤ) + 2 ^ t := by
        rw [hrr0]
        push_cast
        ring
      have hgoalr : ∀ u : ℕ, (ε * u * (r : ℕ) : ℤ) = ε * u * (((r0 : ℕ) : ℤ) + 2 ^ t) := by
        intro u
        rw [hcast]
      simp only [hgoalr]
      have hE : ∑ v ∈ Finset.range (2 ^ t),
          col.getD (reverseBits b (L - (t + 1)) + 2 * v * 2 ^ (L - (t + 1))) 0
            * rou (2 ^ t) (ε * v * r0)
          = ∑ u ∈ Finset.range (2 ^ t),
            col.getD (reverseBits (2 * b) (L - t) + u * 2 ^ (L - t)) 0
              * rou (2 ^ t) (ε * u * r0) := by
        apply Finset.sum_congr rfl
        intro v _
        have hi : reverseBits (2 * b) (L - t) + v * 2 ^ (L - t)
            = reverseBits b (L - (t + 1)) + 2 * v * 2 ^ (L - (t + 1)) := by
          rw [hLt, reverseBits_double, hLt1, pow_succ']
          ring
        rw [hi]
      have hO : ∑ v ∈ Finset.range (2 ^ t),
          col.getD (reverseBits b (L - (t + 1)) + (2 * v + 1) * 2 ^ (L - (t + 1))) 0
            * rou (2 ^ t) (ε * v * r0)
          = ∑ u ∈ Finset.range (2 ^ t),
            col.getD (reverseBits (2 * b + 1) (L - t) + u * 2 ^ (L - t)) 0
              * rou (2 ^ t) (ε * u * r0) := by
        apply Finset.sum_congr rfl
        intro v _
        have hi : reverseBits (2 * b + 1) (L - t) + v * 2 ^ (L - t)
            = reverseBits b (L - (t + 1)) + (2 * v + 1) * 2 ^ (L - (t + 1)) := by
          rw [hLt, reverseBits_double_add_one, hLt1, pow_succ']
          ring
        rw [hi]
      rw [butterfly_shift t ε hεor
        (fun u => col.getD (reverseBits b (L - (t + 1)) + u * 2 ^ (L - (t + 1))) 0)
        (r0 : ℤ)]
      simp only [hE, hO]
      ring

lemma fftRadix2_eq_dft (col : List ℂ) (rev : Bool) (L : ℕ)
    (hlen : col.length = 2 ^ L) :
    fftRadix2 col rev = dft (if rev then 1 else -1) col := by
  have hc : countLevels col.length = L := by rw [hlen, countLevels_pow2]
  apply List.ext_getElem
  · rw [fftRadix2_length, dft_length]
  · intro k h1 h2
    have hk : k < col.length := by rwa [fftRadix2_length] at h1
    have hk2 : k < 2 ^ L := by rwa [hlen] at hk
    rw [← List.getD_eq_getElem _ 0 h1, ← List.getD_eq_getElem _ 0 h2]
    simp only [fftRadix2]
    rw [hc]
    have hinv := radix2_invariant col rev L hlen L le_rfl 0 k hk2
      (by simp)
    rw [show (0 : ℕ) * 2 ^ L + k = k by ring] at hinv
    rw [hinv]
    rw [dft_getD _ _ _ hk]
    apply Finset.sum_congr (by rw [hlen])
    intro j hj
    congr 1
    · congr 1
      rw [Nat.sub_self]
      rw [show reverseBits 0 0 = 0 from rfl]
      simp
    · rw [hlen]

lemma dft_conj (sign : ℤ) (l : List ℂ) :
    (dft sign (l.map (starRingEnd ℂ))).map (starRingEnd ℂ) = dft (-sign) l := by
  apply List.ext_getElem
  · rw [List.length_map, dft_length, List.length_map, dft_length]
  · intro k h1 h2
    have hk : k < l.length := by
      rw [List.length_map, dft_length, List.length_map] at h1
      exact h1
    rw [List.getElem_map]
    have hk1 : k < (l.map (starRingEnd ℂ)).length := by
      rw [List.length_map]
      exact hk
    rw [← List.getD_eq_getElem _ 0 h2, ← List.getD_eq_getElem _ 0 (by
      rw [dft_length]
      exact hk1)]
    rw [dft_getD _ _ _ hk1, dft_getD _ _ _ hk]
    rw [map_sum]
    apply Finset.sum_congr (by rw [List.length_map])
    intro j hj
    have hjl : j < l.length := Finset.mem_range.mp hj
    rw [map_mul, conj_rou]
    congr 1
    · have hjl' : j < (l.map (starRingEnd ℂ)).length := by
        rw [List.length_map]
        exact hjl
      rw [List.getD_eq_getElem _ _ hjl', List.getD_eq_getElem _ _ hjl,
        List.getElem_map]
      exact Complex.conj_conj _
    · rw [List.length_map]
      congr 1
      ring

lemma dft_dft (l : List ℂ) (k : ℕ) (hk : k < l.length) :
    (dft 1 (dft (-1) l)).getD k 0 = (l.length : ℂ) * l.getD k 0 := by
  have hn : 0 < l.length := by omega
  have hk1 : k < (dft (-1) l).length := by rw [dft_length]; exact hk
  rw [dft_getD _ _ _ hk1]
  rw [dft_length]
  have hterm : ∀ j ∈ Finset.range l.length,
      (dft (-1) l).getD j 0 * rou l.length (1 * j * k)
        = ∑ m ∈ Finset.range l.length,
            l.getD m 0 * rou l.length (j * ((k : ℤ) - m)) := by
    intro j hj
    have hjl : j < l.length := Finset.mem_range.mp hj
    rw [dft_getD _ _ _ hjl, Finset.sum_mul]
    apply Finset.sum_congr rfl
    intro m _
    rw [mul_assoc]
    congr 1
    rw [← rou_add]
    congr 1
    ring
  rw [Finset.sum_congr rfl hterm, Finset.sum_comm]
  have hinner : ∀ m ∈ Finset.range l.length,
      (∑ j ∈ Finset.range l.length, l.getD m 0 * rou l.length (j * ((k : ℤ) - m)))
        = l.getD m 0 * (if (l.length : ℤ) ∣ ((k : ℤ) - m) then (l.length : ℂ) else 0) := by
    intro m _
    rw [← Finset.mul_sum, sum_rou_orthogonal l.length hn ((k : ℤ) - m)]
  rw [Finset.sum_congr rfl hinner]
  rw [Finset.sum_eq_single k]
  · rw [if_pos (by simp)]
    ring
  · intro m hm hmk
    have hml : m < l.length := Finset.mem_range.mp hm
    rw [if_neg, mul_zero]
    rintro ⟨c, hc⟩
    have hc1 : (k : ℤ) - m = l.length * c := hc
    have hbound1 : -(l.length : ℤ) < (k : ℤ) - m := by omega
    have hbound2 : ((k : ℤ) - m) < l.length := by omega
    have hcz : c = 0 := by
      by_contra hcz
      rcases lt_or_gt_of_ne hcz with hneg | hpos
      · have : (l.length : ℤ) * c ≤ (l.length : ℤ) * (-1) := by
          apply mul_le_mul_of_nonneg_left _ (by positivity)
          omega
        omega
      · have : (l.length : ℤ) * 1 ≤ (l.length : ℤ) * c := by
          apply mul_le_mul_of_nonneg_left _ (by positivity)
          omega
        omega
    rw [hcz, mul_zero] at hc1
    have : m = k := by omega
    exact hmk (by omega)
  · intro hkk
    exact absurd (Finset.mem_range.mpr hk) hkk

lemma bluMAux_spec (n : ℕ) :
    ∀ k m, 2 * n + 2 - m ≤ k → 0 < m → (∃ j, m = 2 ^ j) →
      (∃ K, bluMAux n m = 2 ^ K) ∧ 2 * n < bluMAux n m := by
  intro k
  induction k with
  | zero =>
    intro m hk hm hp
    rw [bluMAux]
    have hcond : ¬ (0 < m ∧ m / 2 ≤ n) := by omega
    rw [dif_neg hcond]
    exact ⟨hp, by omega⟩
  | succ k ih =>
    intro m hk hm hp
    rw [bluMAux]
    by_cases hc : 0 < m ∧ m / 2 ≤ n
    · rw [dif_pos hc]
      obtain ⟨j, rfl⟩ := hp
      exact ih (2 ^ j * 2) (by omega) (by positivity) ⟨j + 1, by ring⟩
    · rw [dif_neg hc]
      exact ⟨hp, by omega⟩

lemma bluM_spec (n : ℕ) : (∃ K, bluM n = 2 ^ K) ∧ 2 * n < bluM n :=
  bluMAux_spec n (2 * n + 2) 1 (by omega) (by norm_num) ⟨0, by norm_num⟩

lemma transformPow2_eq_dft (col : List ℂ) (rev : Bool) (K : ℕ)
    (hlen : col.length = 2 ^ K) :
    transformPow2 col rev = dft (if rev then 1 else -1) col := by
  rw [transformPow2]
  by_cases h0 : col.length = 0
  · rw [if_pos h0]
    have hnil : col = [] := List.eq_nil_of_length_eq_zero h0
    rw [hnil, dft_nil]
  · rw [if_neg h0]
    exact fftRadix2_eq_dft col rev K hlen

lemma int_dvd_small_eq (m : ℕ) (a b : ℤ) (hm : 0 < m)
    (hdvd : (m : ℤ) ∣ (a - b)) (h1 : -(m : ℤ) < a - b) (h2 : a - b < m) :
    a = b := by
  obtain ⟨c, hc⟩ := hdvd
  have hcz : c = 0 := by
    rcases lt_trichotomy c 0 with h | h | h
    · have : (m : ℤ) * c ≤ (m : ℤ) * (-1) := by
        apply mul_le_mul_of_nonneg_left (by omega) (by positivity)
      omega
    · exact h
    · have : (m : ℤ) * 1 ≤ (m : ℤ) * c := by
        apply mul_le_mul_of_nonneg_left (by omega) (by positivity)
      omega
  rw [hcz, mul_zero] at hc
  omega

lemma cidx_dvd (m p j : ℕ) (hj : j < m) :
    (m : ℤ) ∣ ((p : ℤ) - j - ((p + m - j) % m : ℕ)) := by
  have hq := Nat.div_add_mod (p + m - j) m
  set q := (p + m - j) / m with hqdef
  set i0 := (p + m - j) % m with hidef
  refine ⟨(q : ℤ) - 1, ?_⟩
  have hcast : ((p + m - j : ℕ) : ℤ) = (p : ℤ) + m - j := by omega
  have : (m : ℤ) * q + i0 = (p : ℤ) + m - j := by
    have := hq
    omega
  linarith [this]

lemma convolve_getD (x y : List ℂ) (K : ℕ) (hx : x.length = 2 ^ K)
    (hy : y.length = x.length) (p : ℕ) (hp : p < x.length) :
    (convolve x y).getD p 0
      = ∑ j ∈ Finset.range x.length,
          x.getD j 0 * y.getD ((p + x.length - j) % x.length) 0 := by
  have hm0 : 0 < x.length := by rw [hx]; positivity
  have hX : transformPow2 x false = dft (-1) x := by
    have h := transformPow2_eq_dft x false K hx
    simpa using h
  have hY : transformPow2 y false = dft (-1) y := by
    have h := transformPow2_eq_dft y false K (hy.trans hx)
    simpa using h
  have hZlen : ((dft (-1) x).zipWith (· * ·) (dft (-1) y)).length = x.length := by
    rw [List.length_zipWith, dft_length, dft_length, hy, min_self]
  have hZdft : transformPow2 ((dft (-1) x).zipWith (· * ·) (dft (-1) y)) true
      = dft 1 ((dft (-1) x).zipWith (· * ·) (dft (-1) y)) := by
    have h := transformPow2_eq_dft _ true K (hZlen.trans hx)
    simpa using h
  rw [convolve, hX, hY, hZdft]
  have hp1 : p < (dft 1 ((dft (-1) x).zipWith (· * ·) (dft (-1) y))).length := by
    rw [dft_length, hZlen]
    exact hp
  rw [List.getD_eq_getElem _ 0 (by rw [List.length_map]; exact hp1),
    List.getElem_map, ← List.getD_eq_getElem _ 0 hp1]
  rw [dft_getD _ _ _ (by rw [hZlen]; exact hp), hZlen]
  have hZk : ∀ k ∈ Finset.range x.length,
      ((dft (-1) x).zipWith (· * ·) (dft (-1) y)).getD k 0 * rou x.length (1 * k * p)
        = ∑ j ∈ Finset.range x.length, ∑ i ∈ Finset.range x.length,
            x.getD j 0 * y.getD i 0 * rou x.length ((k : ℤ) * ((p : ℤ) - j - i)) := by
    intro k hk
    have hkm : k < x.length := Finset.mem_range.mp hk
    have hZgetD : ((dft (-1) x).zipWith (· * ·) (dft (-1) y)).getD k 0
        = (dft (-1) x).getD k 0 * (dft (-1) y).getD k 0 := by
      rw [List.getD_eq_getElem _ 0 (by rw [hZlen]; exact hkm),
        List.getElem_zipWith]
      rw [← List.getD_eq_getElem, ← List.getD_eq_getElem]
    rw [hZgetD, dft_getD _ _ _ hkm, dft_getD _ _ _ (by rw [hy]; exact hkm), hy]
    rw [Finset.sum_mul_sum, Finset.sum_mul]
    apply Finset.sum_congr rfl
    intro j _
    rw [Finset.sum_mul]
    apply Finset.sum_congr rfl
    intro i _
    rw [show x.getD j 0 * rou x.length (-1 * j * k) * (y.getD i 0 * rou x.length (-1 * i * k)) * rou x.length (1 * k * p)
        = x.getD j 0 * y.getD i 0 * (rou x.length (-1 * j * k) * rou x.length (-1 * i * k) * rou x.length (1 * k * p)) by ring]
    congr 1
    rw [← rou_add, ← rou_add]
    congr 1
    ring
  rw [Finset.sum_congr rfl hZk, Finset.sum_comm]
  have hswap : ∀ j ∈ Finset.range x.length,
      (∑ k ∈ Finset.range x.length, ∑ i ∈ Finset.range x.length,
        x.getD j 0 * y.getD i 0 * rou x.length ((k : ℤ) * ((p : ℤ) - j - i)))
      = ∑ i ∈ Finset.range x.length,
          x.getD j 0 * y.getD i 0 *
            (if (x.length : ℤ) ∣ ((p : ℤ) - j - i) then (x.length : ℂ) else 0) := by
    intro j hj
    rw [Finset.sum_comm]
    apply Finset.sum_congr rfl
    intro i _
    rw [← Finset.mul_sum]
    congr 1
    rw [← sum_rou_orthogonal x.length hm0 ((p : ℤ) - j - i)]
  rw [Finset.sum_congr rfl hswap]
  have hpick : ∀ j ∈ Finset.range x.length,
      (∑ i ∈ Finset.range x.length,
        x.getD j 0 * y.getD i 0 *
          (if (x.length : ℤ) ∣ ((p : ℤ) - j - i) then (x.length : ℂ) else 0))
      = x.getD j 0 * y.getD ((p + x.length - j) % x.length) 0 * x.length := by
    intro j hj
    have hjm : j < x.length := Finset.mem_range.mp hj
    have hi0 : (p + x.length - j) % x.length < x.length := Nat.mod_lt _ hm0
    rw [Finset.sum_eq_single ((p + x.length - j) % x.length)]
    · rw [if_pos (cidx_dvd x.length p j hjm)]
    · intro i hi hine
      have him : i < x.length := Finset.mem_range.mp hi
      rw [if_neg, mul_zero]
      intro hdvd
      have hd0 := cidx_dvd x.length p j hjm
      have hdiff : (x.length : ℤ) ∣ (((p + x.length - j) % x.length : ℕ) : ℤ) - i := by
        have h1 : (((p + x.length - j) % x.length : ℕ) : ℤ) - i
            = ((p : ℤ) - j - i) - ((p : ℤ) - j - ((p + x.length - j) % x.length : ℕ)) := by
          ring
        rw [h1]
        exact dvd_sub hdvd hd0
      have heq : (((p + x.length - j) % x.length : ℕ) : ℤ) = (i : ℤ) := by
        apply int_dvd_small_eq x.length _ _ hm0 hdiff
        · omega
        · omega
      exact absurd (by omega : i = (p + x.length - j) % x.length) hine
    · intro hne
      exact absurd (Finset.mem_range.mpr hi0) hne
  rw [Finset.sum_congr rfl hpick]
  rw [Finset.sum_div]
  apply Finset.sum_congr rfl
  intro j _
  have hxc : (x.length : ℂ) ≠ 0 := Nat.cast_ne_zero.mpr (by omega)
  field_simp

lemma expTableBlu_getD (n : ℕ) (rev : Bool) (i : ℕ) (hi : i < n) :
    (expTableBlu n rev).getD i 0
      = rou (2 * n) ((if rev then 1 else -1) * i * i) := by
  have hn0 : 0 < n := by omega
  have hlen : i < (expTableBlu n rev).length := by
    rw [expTableBlu, List.length_map, List.length_range]
    exact hi
  rw [List.getD_eq_getElem _ _ hlen]
  simp only [expTableBlu, List.getElem_map, List.getElem_range]
  have hstep1 : polar1 ((if rev then Real.pi else -Real.pi)
      * ((i * i) % (2 * n) : ℕ) / n)
      = rou (2 * n) ((if rev then 1 else -1) * ((i * i) % (2 * n) : ℕ)) := by
    rw [polar1, rou]
    congr 1
    have hnC : ((n : ℕ) : ℂ) ≠ 0 := Nat.cast_ne_zero.mpr (by omega)
    cases rev with
    | false =>
      simp only [Bool.false_eq_true, if_neg (Bool.false_ne_true)]
      generalize (i * i) % (2 * n) = M
      push_cast
      field_simp
      ring
    | true =>
      simp only [if_pos rfl]
      generalize (i * i) % (2 * n) = M
      push_cast
      field_simp
      ring
  rw [hstep1]
  have hq := Nat.div_add_mod (i * i) (2 * n)
  have hMcast : (((i * i) % (2 * n) : ℕ) : ℤ)
      = (i : ℤ) * i - ((2 * n : ℕ) : ℤ) * (((i * i) / (2 * n) : ℕ) : ℤ) := by
    omega
  have hper : ((if rev then (1 : ℤ) else -1) * (((i * i) % (2 * n) : ℕ) : ℤ))
      = (if rev then (1 : ℤ) else -1) * i * i
        + ((2 * n : ℕ) : ℤ)
          * ((if rev then (1 : ℤ) else -1) * (-(((i * i) / (2 * n) : ℕ) : ℤ))) := by
    rw [hMcast]
    ring
  rw [hper, rou_periodic]

lemma mapRange_getD (f : ℕ → ℂ) (M i : ℕ) (hi : i < M) :
    ((List.range M).map f).getD i 0 = f i := by
  rw [List.getD_eq_getElem _ _ (by
    rw [List.length_map, List.length_range]
    exact hi)]
  simp only [List.getElem_map, List.getElem_range]

lemma bluXvec_length (col : List ℂ) (rev : Bool) :
    (bluXvec col rev).length = bluM col.length := by
  rw [bluXvec, List.length_map, List.length_range]

lemma bluYvec_length (col : List ℂ) (rev : Bool) :
    (bluYvec col rev).length = bluM col.length := by
  rw [bluYvec, List.length_map, List.length_range]

lemma fftBluestein_eq_dft (col : List ℂ) (rev : Bool) (h0 : col ≠ []) :
    fftBluestein col rev = dft (if rev then 1 else -1) col := by
  have hn0 : 0 < col.length := List.length_pos.mpr h0
  obtain ⟨⟨K, hK⟩, hm2n⟩ := bluM_spec col.length
  have hnm : col.length < bluM col.length := by omega
  have hm0 : 0 < bluM col.length := by omega
  apply List.ext_getElem
  · rw [fftBluestein_length, dft_length]
  · intro k h1 h2
    have hk : k < col.length := by rwa [fftBluestein_length] at h1
    rw [← List.getD_eq_getElem _ 0 h1, ← List.getD_eq_getElem _ 0 h2]
    rw [fftBluestein, mapRange_getD _ _ k hk, dft_getD _ _ _ hk]
    have hxlen : (bluXvec col rev).length = bluM col.length := bluXvec_length col rev
    have hconv := convolve_getD (bluXvec col rev) (bluYvec col rev) K
      (by rw [hxlen, hK]) (by rw [bluYvec_length, hxlen]) k
      (by rw [hxlen]; omega)
    rw [hxlen] at hconv
    rw [hconv]
    have hsub : Finset.range col.length ⊆ Finset.range (bluM col.length) :=
      Finset.range_subset.mpr (le_of_lt hnm)
    have hzero : ∀ j ∈ Finset.range (bluM col.length),
        j ∉ Finset.range col.length →
        (bluXvec col rev).getD j 0
          * (bluYvec col rev).getD
              ((k + bluM col.length - j) % bluM col.length) 0 = 0 := by
      intro j hj hjn
      have hjm : j < bluM col.length := Finset.mem_range.mp hj
      have hjn' : ¬ j < col.length := fun h => hjn (Finset.mem_range.mpr h)
      rw [bluXvec, mapRange_getD _ _ j hjm, if_neg hjn', zero_mul]
    rw [← Finset.sum_subset hsub hzero]
    rw [Finset.mul_sum]
    apply Finset.sum_congr rfl
    intro j hj
    have hjn : j < col.length := Finset.mem_range.mp hj
    have hjm : j < bluM col.length := by omega
    rw [bluXvec, mapRange_getD _ _ j hjm, if_pos hjn]
    have hY : (bluYvec col rev).getD
        ((k + bluM col.length - j) % bluM col.length) 0
        = rou (2 * col.length)
            (-(if rev then (1 : ℤ) else -1) * ((k : ℤ) - j) * ((k : ℤ) - j)) := by
      by_cases hjk : j ≤ k
      · have hidx : (k + bluM col.length - j) % bluM col.length = k - j := by
          have he : k + bluM col.length - j = bluM col.length + (k - j) := by omega
          rw [he, Nat.add_mod_left, Nat.mod_eq_of_lt (by omega)]
        rw [hidx, bluYvec, mapRange_getD _ _ (k - j) (by omega)]
        by_cases hd0 : k - j = 0
        · rw [if_pos hd0]
          rw [expTableBlu_getD col.length rev 0 hn0]
          have hkj : (k : ℤ) - j = 0 := by omega
          rw [hkj]
          norm_num
        · rw [if_neg hd0, if_pos (by omega : k - j < col.length)]
          rw [expTableBlu_getD col.length rev (k - j) (by omega), conj_rou]
          congr 1
          have hcast : ((k - j : ℕ) : ℤ) = (k : ℤ) - j := by omega
          rw [hcast]
          ring
      · have hd1 : 1 ≤ j - k := by omega
        have hdn : j - k < col.length := by omega
        have hidx : (k + bluM col.length - j) % bluM col.length
            = bluM col.length - (j - k) := by
          have he : k + bluM col.length - j = bluM col.length - (j - k) := by omega
          rw [he, Nat.mod_eq_of_lt (by omega)]
        rw [hidx, bluYvec, mapRange_getD _ _ (bluM col.length - (j - k)) (by omega)]
        rw [if_neg (by omega), if_neg (by omega)]
        rw [if_pos (by constructor <;> omega)]
        have hmm : bluM col.length - (bluM col.length - (j - k)) = j - k := by omega
        rw [hmm, expTableBlu_getD col.length rev (j - k) hdn, conj_rou]
        congr 1
        have hcast : ((j - k : ℕ) : ℤ) = (j : ℤ) - k := by omega
        rw [hcast]
        ring
    rw [hY]
    rw [expTableBlu_getD col.length rev k hk, expTableBlu_getD col.length rev j hjn]
    rw [show rou (2 * col.length) ((if rev then (1 : ℤ) else -1) * k * k)
          * (col.getD j 0 * rou (2 * col.length) ((if rev then (1 : ℤ) else -1) * j * j)
            * rou (2 * col.length)
                (-(if rev then (1 : ℤ) else -1) * ((k : ℤ) - j) * ((k : ℤ) - j)))
        = col.getD j 0
          * (rou (2 * col.length) ((if rev then (1 : ℤ) else -1) * k * k)
            * rou (2 * col.length) ((if rev then (1 : ℤ) else -1) * j * j)
            * rou (2 * col.length)
                (-(if rev then (1 : ℤ) else -1) * ((k : ℤ) - j) * ((k : ℤ) - j)))
      by ring]
    congr 1
    rw [← rou_add, ← rou_add]
    rw [show ((if rev then (1 : ℤ) else -1) * k * k
          + (if rev then (1 : ℤ) else -1) * j * j
          + -(if rev then (1 : ℤ) else -1) * ((k : ℤ) - j) * ((k : ℤ) - j))
        = ((if rev then (1 : ℤ) else -1) * j * k) * 2 by ring]
    rw [show 2 * col.length = col.length * 2 by ring]
    exact rou_mul_cancel col.length 2 _ (by norm_num)

lemma dispatch_eq_dft (c : List ℂ) :
    (if isPow2Test c.length then fftRadix2 c false else fftBluestein c false)
      = dft (-1) c := by
  by_cases hp : isPow2Test c.length
  · rw [if_pos hp]
    by_cases h0 : c.length = 0
    · have hnil : c = [] := List.eq_nil_of_length_eq_zero h0
      subst hnil
      rw [dft_nil]
      apply List.eq_nil_of_length_eq_zero
      rw [fftRadix2_length]
      rfl
    · obtain ⟨K, hK⟩ := (land_pred_eq_zero_iff c.length (by omega)).mp
        (of_decide_eq_true hp)
      have h := fftRadix2_eq_dft c false K hK
      simpa using h
  · rw [if_neg hp]
    have hne : c ≠ [] := by
      intro hnil
      subst hnil
      exact hp (by rfl)
    have h := fftBluestein_eq_dft c false hne
    simpa using h

lemma fftTransform_eq_dft (c : List ℂ) :
    fftTransform c false = dft (-1) c := by
  rw [fftTransform]
  by_cases h0 : c.length = 0
  · rw [if_pos h0]
    have hnil : c = [] := List.eq_nil_of_length_eq_zero h0
    rw [hnil, dft_nil]
  · rw [if_neg h0]
    exact dispatch_eq_dft c

lemma fftITransform_eq (l : List ℂ) :
    fftITransform l = (dft 1 l).map (fun v => v / (l.length : ℂ)) := by
  have hd := dispatch_eq_dft (l.map (starRingEnd ℂ))
  have hc := dft_conj (-1) l
  rw [show -(-1 : ℤ) = 1 from rfl] at hc
  simp only [fftITransform]
  rw [hd, hc]

/-- C1: the FFT round-trip — applying the visitor in inverse mode to the
output of the forward transform returns the original column exactly (in the
exact-arithmetic model), for every non-empty column, covering both the
radix-2 (power-of-two) and the Bluestein path; and the inverse transform is
computed by the conjugate-scale trick: conjugate the input, run the forward
transform dispatch, conjugate the result, divide every element by the
length. -/
theorem c1_fft_roundtrip (col y : List ℂ) (hne : col ≠ []) :
    fftOperator true (fftOperator false col) = col
    ∧ fftITransform y
        = ((fftTransform (y.map (starRingEnd ℂ)) false).map (starRingEnd ℂ)).map
            (fun v => v / (y.length : ℂ)) := by
  constructor
  · have hop1 : ∀ x : List ℂ, fftOperator true x = fftITransform x :=
      fun x => rfl
    have hop2 : ∀ x : List ℂ, fftOperator false x = fftTransform x false :=
      fun x => rfl
    rw [hop1, hop2, fftTransform_eq_dft col, fftITransform_eq]
    apply List.ext_getElem
    · rw [List.length_map, dft_length, dft_length]
    · intro k h1 h2
      have hk : k < col.length := h2
      rw [List.getElem_map]
      have hk1 : k < (dft 1 (dft (-1) col)).length := by
        rw [dft_length, dft_length]
        exact hk
      rw [← List.getD_eq_getElem _ 0 hk1, ← List.getD_eq_getElem _ 0 h2]
      rw [dft_length, dft_dft col k hk]
      have hc : (col.length : ℂ) ≠ 0 := Nat.cast_ne_zero.mpr (by
        intro hz
        exact hne (List.eq_nil_of_length_eq_zero hz))
      field_simp
  · rw [fftITransform_eq y, fftTransform_eq_dft (y.map (starRingEnd ℂ))]
    have hc := dft_conj (-1) y
    rw [show -(-1 : ℤ) = 1 from rfl] at hc
    rw [hc]

/-- Witness for `c1_fft_roundtrip` at a concrete input. -/
theorem c1_witness :
    (([1] : List ℂ) ≠ [])
    ∧ fftOperator true (fftOperator false [1]) = [1] :=
  ⟨by simp, (c1_fft_roundtrip [1] [] (by simp)).1⟩

end DataFrameML
